import Mathlib

/-!
Shallow embedding of the reversible pixel-watermarking codec of
`src/main.py` (Secure Image Authentication Service).

Pixel grids are modelled as row-major flattened lists of RGB triples of
natural numbers (the `arr.reshape(-1, 3)` view used by the source);
bytes are lists of naturals below 256; bit sequences are lists of
naturals.  The external collaborators (PIL image container
decode/encode, and the SHA-256 digest from `hashlib`) are passed in as
explicit function parameters, exactly at the interface the source uses
them.  Fallible Python operations (out-of-range list indexing,
`bytearray.append` of a value above 255) are modelled with `Option`;
the two HTTP endpoints are modelled as `Except`-returning functions
whose error constructors record which terminal failure occurred.
-/

namespace ImgAuth

/-- A pixel as the source sees it after `arr.reshape(-1, 3)`: an (R, G, B)
triple of 8-bit channel values (the uint8 dtype keeps each below 256). -/
abbrev Pixel := Nat × Nat × Nat

/-- `HASH_BITS = 256` from `src/main.py` line 12. -/
abbrev HASH_BITS : Nat := 256

/-- `NUM_PIXELS = HASH_BITS` from `src/main.py` line 13. -/
abbrev NUM_PIXELS : Nat := HASH_BITS

/-- `APPENDED_BYTES = HASH_BITS // 8 = 32` from `src/main.py` line 14. -/
abbrev APPENDED_BYTES : Nat := HASH_BITS / 8

/-- `MIN_BITS = 6144` from `src/main.py` line 15. -/
abbrev MIN_BITS : Nat := 6144

/-- `MIN_BYTES = MIN_BITS // 8 = 768` from `src/main.py` line 16. -/
abbrev MIN_BYTES : Nat := MIN_BITS / 8

/-- One byte of `pack_bits_to_bytes` (`src/main.py` lines 36-38): starting
at index `i`, fold the eight bits `bit_list[i+j]` for `j = 0..7` through
`byte = (byte << 1) | bit`.  Python raises `IndexError` when `i + j`
falls past the end of the list, hence the `Option`. -/
def packByte (bit_list : List Nat) (i : Nat) : Option Nat :=
  (List.range 8).foldlM
    (fun byte j => (bit_list[i + j]?).map (fun bit => (byte <<< 1) ||| bit)) 0

/-- `pack_bits_to_bytes` (`src/main.py` lines 33-40): for
`i in range(0, len(bit_list), 8)` (i.e. `i = 8*k` for
`k < ceil(len/8)`) build a byte from bits `i..i+7` and append it.
`bytearray.append` raises `ValueError` for a value above 255, which the
`byte < 256` guard models. -/
def pack_bits_to_bytes (bit_list : List Nat) : Option (List Nat) :=
  (List.range ((bit_list.length + 7) / 8)).mapM (fun k =>
    match packByte bit_list (8 * k) with
    | some byte => if byte < 256 then some byte else none
    | none => none)

/-- `unpack_bytes_to_bits` (`src/main.py` lines 43-50): expand each byte
MSB-first into bits `(byte >> i) & 1` for `i = 7..0`, then truncate to
`expected_bits` when given. -/
def unpack_bytes_to_bits (bts : List Nat) (expected_bits : Option Nat) : List Nat :=
  let bits := bts.flatMap (fun byte =>
    (List.range 8).reverse.map (fun i => (byte >>> i) &&& 1))
  match expected_bits with
  | some n => bits.take n
  | none => bits

/-- The channel fold `val = (r << 16) | (g << 8) | b` used at
`src/main.py` lines 76, 121 and 130. -/
def fold (r g b : Nat) : Nat :=
  (r <<< 16) ||| (g <<< 8) ||| b

/-- The channel unfold `[(v >> 16) & 0xFF, (v >> 8) & 0xFF, v & 0xFF]`
written back into the pixel row at `src/main.py` lines 81 and 132. -/
def unfold (v : Nat) : Pixel :=
  ((v >>> 16) &&& 0xFF, (v >>> 8) &&& 0xFF, v &&& 0xFF)

/-- Python's `val & ~1` (clear bit 0) on a nonnegative `val`, as used at
`src/main.py` lines 80 and 131. -/
def clear_lsb (val : Nat) : Nat := 2 * (val / 2)

/-- The embedding loop of `secure_image` (`src/main.py` lines 74-81):
for `i in range(n)` read pixel `i`, record its folded value's LSB, and
overwrite the pixel with the digest bit substituted into that LSB.
`flat[i]` and `digest_bits[i]` raise `IndexError` when out of range. -/
def embed_loop (flat : List Pixel) (digest_bits : List Nat) (n : Nat) :
    Option (List Pixel × List Nat) :=
  (List.range n).foldlM
    (fun st i => do
      let p ← st.1[i]?
      let val := fold p.1 p.2.1 p.2.2
      let lsb := val &&& 1
      let dbit ← digest_bits[i]?
      let new_val := clear_lsb val ||| dbit
      pure (st.1.set i (unfold new_val), st.2 ++ [lsb]))
    (flat, [])

/-- The extraction loop of `authenticate_image` (`src/main.py` lines
118-122): collect the LSB of the folded value of each of the first `n`
pixels. -/
def extract_loop (flat : List Pixel) (n : Nat) : Option (List Nat) :=
  (List.range n).mapM (fun i =>
    (flat[i]?).map (fun p => fold p.1 p.2.1 p.2.2 &&& 1))

/-- The restoration loop of `authenticate_image` (`src/main.py` lines
128-132): overwrite the LSB of the folded value of each of the first
`n` pixels with the corresponding recovered original bit. -/
def restore_loop (flat : List Pixel) (original_bits : List Nat) (n : Nat) :
    Option (List Pixel) :=
  (List.range n).foldlM
    (fun f i => do
      let p ← f[i]?
      let val := fold p.1 p.2.1 p.2.2
      let obit ← original_bits[i]?
      let new_val := clear_lsb val ||| obit
      pure (f.set i (unfold new_val)))
    flat

/-- `arr.tobytes()` on the row-major RGB array (`src/main.py` lines 67
and 138): the raw channel bytes in pixel order, R then G then B. -/
def tobytes (flat : List Pixel) : List Nat :=
  flat.flatMap (fun p => [p.1, p.2.1, p.2.2])

/-- Terminal failures of the two endpoints. `ImageTooSmall` is the 400
`HTTPException` of the explicit size checks; `InvalidImage` is a failed
container decode (a 400 in `/authenticate`, an unhandled exception in
`/secure`); `RuntimeErr` is any other uncaught Python exception
(`IndexError` from list indexing, `ValueError` from
`bytearray.append`). -/
inductive Err
  | ImageTooSmall
  | InvalidImage
  | RuntimeErr
deriving DecidableEq

/-- The JSON payload of a successful `/authenticate` run
(`src/main.py` lines 142-157), together with the restored pixel grid it
was computed from.  `auth_percent` is the exact value
`(match_count / HASH_BITS) * 100` before the presentational
`round(-, 2)`. -/
structure AuthResult where
  authentic : Bool
  match_count : Nat
  auth_percent : ℚ
  restored : List Pixel
  restored_image_bytes : List Nat
  fmt : String
deriving DecidableEq

/-- `secure_image` (`src/main.py` lines 53-93), with the external
collaborators explicit: `decode` is `image_bytes_to_rgb_array`
flattened to pixels (`none` on a PIL decode failure), `encode` is
`rgb_array_to_image_bytes`, and `sha256` is `hashlib.sha256(-).digest()`.
Returns the streamed response body: re-encoded modified image bytes
with the packed original-LSB trailer appended. -/
def secure_image (decode : List Nat → Option (List Pixel × String))
    (encode : List Pixel → String → List Nat)
    (sha256 : List Nat → List Nat) (data : List Nat) :
    Except Err (List Nat) :=
  if data.length < MIN_BYTES then .error .ImageTooSmall
  else
    match decode data with
    | none => .error .InvalidImage
    | some (flat, fmt) =>
      match embed_loop flat
          (unpack_bytes_to_bits (sha256 (tobytes flat)) (some HASH_BITS))
          NUM_PIXELS with
      | none => .error .RuntimeErr
      | some (flat2, original_lsb_bits) =>
        match pack_bits_to_bytes original_lsb_bits with
        | none => .error .RuntimeErr
        | some appended => .ok (encode flat2 fmt ++ appended)

/-- `authenticate_image` (`src/main.py` lines 96-157), with the same
explicit collaborators.  Splits the 32-byte trailer (`data[-32:]` and
`data[:-32]`, which under the size guard are `drop`/`take` at
`length - 32`), decodes the image prefix, extracts the embedded bits,
restores the original LSBs, recomputes the digest of the restored
pixels, and compares.  The Python locals (`original_bits`,
`computed_bits`, `match_count`, `auth_percent`, `authentic`) are pure
and are inlined here. -/
def authenticate_image (decode : List Nat → Option (List Pixel × String))
    (encode : List Pixel → String → List Nat)
    (sha256 : List Nat → List Nat) (data : List Nat) :
    Except Err AuthResult :=
  if data.length < MIN_BYTES + APPENDED_BYTES then .error .ImageTooSmall
  else
    match decode (data.take (data.length - APPENDED_BYTES)) with
    | none => .error .InvalidImage
    | some (flat, fmt) =>
      match extract_loop flat NUM_PIXELS with
      | none => .error .RuntimeErr
      | some embedded_bits =>
        match restore_loop flat
            (unpack_bytes_to_bits (data.drop (data.length - APPENDED_BYTES))
              (some HASH_BITS)) NUM_PIXELS with
        | none => .error .RuntimeErr
        | some restored =>
          .ok { authentic := unpack_bytes_to_bits (sha256 (tobytes restored))
                  (some HASH_BITS) == embedded_bits,
                match_count := ((unpack_bytes_to_bits (sha256 (tobytes restored))
                  (some HASH_BITS)).zip embedded_bits).countP
                    (fun ab => ab.1 == ab.2),
                auth_percent := ((((unpack_bytes_to_bits (sha256 (tobytes restored))
                  (some HASH_BITS)).zip embedded_bits).countP
                    (fun ab => ab.1 == ab.2) : ℚ) / (HASH_BITS : ℚ)) * 100,
                restored := restored,
                restored_image_bytes := encode restored fmt, fmt := fmt }

/-! ### Arithmetic facts about the bit-level operations -/

/-- Bitwise or of `2^k * x` with `y < 2^k` is plain addition: the two
operands occupy disjoint bit ranges. -/
theorem or_two_pow_mul_add (k x y : Nat) (hy : y < 2 ^ k) :
    (2 ^ k * x) ||| y = 2 ^ k * x + y := by
  induction k generalizing x y with
  | zero =>
    interval_cases y
    simp
  | succ k ih =>
    have hx2 : (2 ^ (k + 1) * x) % 2 = 0 := by
      rw [pow_succ, mul_comm (2 ^ k) 2, mul_assoc]
      exact Nat.mul_mod_right 2 _
    have hdiv : ((2 ^ (k + 1) * x) ||| y) / 2 = 2 ^ k * x + y / 2 := by
      rw [Nat.or_div_two]
      have h1 : (2 ^ (k + 1) * x) / 2 = 2 ^ k * x := by
        rw [pow_succ, mul_comm (2 ^ k) 2, mul_assoc]
        exact Nat.mul_div_cancel_left _ (by norm_num)
      rw [h1]
      exact ih x (y / 2) (by omega)
    have hmod : ((2 ^ (k + 1) * x) ||| y) % 2 = y % 2 := by
      rcases Nat.mod_two_eq_zero_or_one y with h | h
      · rcases Nat.mod_two_eq_zero_or_one ((2 ^ (k + 1) * x) ||| y) with h2 | h2
        · omega
        · rw [Nat.or_mod_two_eq_one] at h2
          omega
      · have : ((2 ^ (k + 1) * x) ||| y) % 2 = 1 := by
          rw [Nat.or_mod_two_eq_one]
          . exact Or.inr h
        omega
    have hrecon := Nat.div_add_mod ((2 ^ (k + 1) * x) ||| y) 2
    have hy2 := Nat.div_add_mod y 2
    rw [hdiv, hmod] at hrecon
    have hexp : 2 ^ (k + 1) * x = 2 * (2 ^ k * x) := by ring
    omega

/-- Bitwise or of an even number with a single bit is addition. -/
theorem or_two_mul_add (m d : Nat) (hd : d < 2) :
    (2 * m) ||| d = 2 * m + d := by
  have := or_two_pow_mul_add 1 m d (by omega)
  simpa using this

/-- Masking with `0xFF` is reduction mod 256. -/
theorem and_255_eq_mod (x : Nat) : x &&& 255 = x % 256 := by
  have := Nat.and_pow_two_sub_one_eq_mod x 8
  norm_num at this
  exact this

/-- The channel fold is plain base-256 positional arithmetic when the
channel values are bytes. -/
theorem fold_eq (r g b : Nat) (hg : g < 256) (hb : b < 256) :
    fold r g b = 65536 * r + 256 * g + b := by
  unfold fold
  rw [Nat.shiftLeft_eq, Nat.shiftLeft_eq]
  have e16 : (2 : ℕ) ^ 16 = 65536 := by norm_num
  have e8 : (2 : ℕ) ^ 8 = 256 := by norm_num
  rw [mul_comm r (2 ^ 16), mul_comm g (2 ^ 8)]
  have h1 : (2 ^ 16 * r) ||| (2 ^ 8 * g) = 2 ^ 16 * r + 2 ^ 8 * g :=
    or_two_pow_mul_add 16 r (2 ^ 8 * g) (by rw [e8, e16]; omega)
  rw [h1]
  have h2 : 2 ^ 16 * r + 2 ^ 8 * g = 2 ^ 8 * (2 ^ 8 * r + g) := by ring
  rw [h2]
  have h3 : (2 ^ 8 * (2 ^ 8 * r + g)) ||| b = 2 ^ 8 * (2 ^ 8 * r + g) + b :=
    or_two_pow_mul_add 8 (2 ^ 8 * r + g) b (by rw [e8]; omega)
  rw [h3, e8]
  omega

/-- Unfolding a 24-bit value recovers its three byte fields. -/
theorem unfold_eq (v : Nat) :
    unfold v = (v / 65536 % 256, v / 256 % 256, v % 256) := by
  unfold unfold
  rw [Nat.shiftRight_eq_div_pow, Nat.shiftRight_eq_div_pow]
  rw [and_255_eq_mod, and_255_eq_mod, and_255_eq_mod]

/-- Unfold inverts fold on byte-valued channels. -/
theorem unfold_fold (r g b : Nat) (hr : r < 256) (hg : g < 256) (hb : b < 256) :
    unfold (fold r g b) = (r, g, b) := by
  rw [fold_eq r g b hg hb, unfold_eq]
  simp only [Prod.mk.injEq]
  refine ⟨by omega, by omega, by omega⟩

/-- The embedding step on one pixel (`src/main.py` lines 80-81): with
byte-valued channels and a single-bit digest value, the result keeps R
and G and replaces only bit 0 of B — no carry into any other bit. -/
theorem embed_pixel_eq (r g b d : Nat) (hr : r < 256) (hg : g < 256)
    (hb : b < 256) (hd : d < 2) :
    unfold (clear_lsb (fold r g b) ||| d) = (r, g, 2 * (b / 2) + d) := by
  rw [fold_eq r g b hg hb]
  unfold clear_lsb
  rw [or_two_mul_add _ d hd, unfold_eq]
  simp only [Prod.mk.injEq]
  refine ⟨by omega, by omega, by omega⟩

/-- The recorded LSB of one pixel (`src/main.py` line 77) is the parity
of its blue channel. -/
theorem lsb_fold (r g b : Nat) (hg : g < 256) (hb : b < 256) :
    fold r g b &&& 1 = b % 2 := by
  rw [fold_eq r g b hg hb, Nat.and_one_is_mod]
  omega

/-! ### Closed forms of the three per-pixel loops -/

/-- The embedding loop succeeds whenever the first `n` pixel and digest
indices exist, its output grid agrees pointwise with single-pixel
embedding below `n` and with the input at and beyond `n`, and the
recorded bits are the folded LSBs of the first `n` input pixels. -/
theorem embed_loop_spec (flat : List Pixel) (dbits : List Nat) (n : Nat)
    (hn : n ≤ flat.length) (hd : n ≤ dbits.length) :
    ∃ flat2 lsbs, embed_loop flat dbits n = some (flat2, lsbs)
      ∧ flat2.length = flat.length
      ∧ lsbs = (flat.take n).map (fun p => fold p.1 p.2.1 p.2.2 &&& 1)
      ∧ (∀ i, i < n → ∀ p, flat[i]? = some p → ∀ d, dbits[i]? = some d →
          flat2[i]? = some (unfold (clear_lsb (fold p.1 p.2.1 p.2.2) ||| d)))
      ∧ (∀ i, n ≤ i → flat2[i]? = flat[i]?) := by
  induction n with
  | zero =>
    refine ⟨flat, [], ?_, rfl, by simp, by omega, fun i _ => rfl⟩
    simp [embed_loop]
  | succ n ih =>
    obtain ⟨flat2, lsbs, heq, hlen, hlsbs, hbelow, habove⟩ :=
      ih (by omega) (by omega)
    have hpix : flat[n]? = some flat[n] := List.getElem?_eq_getElem (by omega)
    have hdig : dbits[n]? = some dbits[n] := List.getElem?_eq_getElem (by omega)
    have hpix2 : flat2[n]? = some flat[n] := by
      rw [habove n (le_refl n)]
      exact hpix
    refine ⟨flat2.set n (unfold (clear_lsb (fold flat[n].1 flat[n].2.1 flat[n].2.2)
        ||| dbits[n])),
      lsbs ++ [fold flat[n].1 flat[n].2.1 flat[n].2.2 &&& 1], ?_, ?_, ?_, ?_, ?_⟩
    · unfold embed_loop
      rw [List.range_succ, List.foldlM_append]
      unfold embed_loop at heq
      rw [heq]
      simp [hpix2, hdig]
    · simp [hlen]
    · subst hlsbs
      rw [List.take_succ, List.map_append, hpix]
      rfl
    · intro i hi p hp d hdp
      rcases Nat.lt_or_ge i n with h | h
      · rw [List.getElem?_set_ne (by omega)]
        exact hbelow i h p hp d hdp
      · have hin : i = n := by omega
        subst hin
        rw [List.getElem?_set_self (by omega)]
        rw [hpix] at hp
        rw [hdig] at hdp
        cases hp
        cases hdp
        rfl
    · intro i hi
      rw [List.getElem?_set_ne (by omega)]
      exact habove i (by omega)

/-- The restoration loop succeeds whenever the first `n` pixel and bit
indices exist, agrees pointwise with single-pixel LSB substitution
below `n`, and leaves the rest of the grid unchanged. -/
theorem restore_loop_spec (flat : List Pixel) (obits : List Nat) (n : Nat)
    (hn : n ≤ flat.length) (ho : n ≤ obits.length) :
    ∃ flat2, restore_loop flat obits n = some flat2
      ∧ flat2.length = flat.length
      ∧ (∀ i, i < n → ∀ p, flat[i]? = some p → ∀ d, obits[i]? = some d →
          flat2[i]? = some (unfold (clear_lsb (fold p.1 p.2.1 p.2.2) ||| d)))
      ∧ (∀ i, n ≤ i → flat2[i]? = flat[i]?) := by
  induction n with
  | zero =>
    refine ⟨flat, ?_, rfl, by omega, fun i _ => rfl⟩
    simp [restore_loop]
  | succ n ih =>
    obtain ⟨flat2, heq, hlen, hbelow, habove⟩ := ih (by omega) (by omega)
    have hpix : flat[n]? = some flat[n] := List.getElem?_eq_getElem (by omega)
    have hbit : obits[n]? = some obits[n] := List.getElem?_eq_getElem (by omega)
    have hpix2 : flat2[n]? = some flat[n] := by
      rw [habove n (le_refl n)]
      exact hpix
    refine ⟨flat2.set n (unfold (clear_lsb (fold flat[n].1 flat[n].2.1 flat[n].2.2)
        ||| obits[n])), ?_, ?_, ?_, ?_⟩
    · unfold restore_loop
      rw [List.range_succ, List.foldlM_append]
      unfold restore_loop at heq
      rw [heq]
      simp [hpix2, hbit]
    · simp [hlen]
    · intro i hi p hp d hdp
      rcases Nat.lt_or_ge i n with h | h
      · rw [List.getElem?_set_ne (by omega)]
        exact hbelow i h p hp d hdp
      · have hin : i = n := by omega
        subst hin
        rw [List.getElem?_set_self (by omega)]
        rw [hpix] at hp
        rw [hbit] at hdp
        cases hp
        cases hdp
        rfl
    · intro i hi
      rw [List.getElem?_set_ne (by omega)]
      exact habove i (by omega)

/-- The extraction loop succeeds whenever the first `n` pixels exist and
returns exactly the folded LSBs of the first `n` pixels. -/
theorem extract_loop_spec (flat : List Pixel) (n : Nat) (hn : n ≤ flat.length) :
    extract_loop flat n =
      some ((flat.take n).map (fun p => fold p.1 p.2.1 p.2.2 &&& 1)) := by
  induction n with
  | zero => rfl
  | succ n ih =>
    have hpix : flat[n]? = some flat[n] := List.getElem?_eq_getElem (by omega)
    unfold extract_loop
    rw [List.range_succ, List.mapM_append]
    unfold extract_loop at ih
    rw [ih (by omega)]
    have h1 : List.mapM
        (fun i => Option.map (fun p => fold p.1 p.2.1 p.2.2 &&& 1) flat[i]?) [n]
        = some [fold flat[n].1 flat[n].2.1 flat[n].2.2 &&& 1] := by
      rw [List.mapM_cons, hpix]
      rfl
    rw [h1, List.take_succ, List.map_append, hpix]
    rfl

/-! ### Structure of `pack_bits_to_bytes` and `unpack_bytes_to_bits` -/

/-- The value accumulated by the inner loop of `pack_bits_to_bytes` over
one complete group of eight bits. -/
def byteOf (b0 b1 b2 b3 b4 b5 b6 b7 : Nat) : Nat :=
  (((((((0 <<< 1 ||| b0) <<< 1 ||| b1) <<< 1 ||| b2) <<< 1 ||| b3) <<< 1 ||| b4)
    <<< 1 ||| b5) <<< 1 ||| b6) <<< 1 ||| b7

set_option synthInstance.maxSize 2000 in
set_option synthInstance.maxHeartbeats 1000000 in
set_option maxHeartbeats 1000000 in
/-- On single-bit values the packed byte is below 256 and unpacking it
MSB-first recovers the eight bits. -/
theorem byteOf_facts : ∀ b0 < 2, ∀ b1 < 2, ∀ b2 < 2, ∀ b3 < 2, ∀ b4 < 2,
    ∀ b5 < 2, ∀ b6 < 2, ∀ b7 < 2,
    byteOf b0 b1 b2 b3 b4 b5 b6 b7 < 256 ∧
      (List.range 8).reverse.map
        (fun i => (byteOf b0 b1 b2 b3 b4 b5 b6 b7 >>> i) &&& 1) =
        [b0, b1, b2, b3, b4, b5, b6, b7] := by
  decide

/-- A complete leading group packs to `byteOf` of its bits. -/
theorem packByte_cons8 (b0 b1 b2 b3 b4 b5 b6 b7 : Nat) (rest : List Nat) :
    packByte (b0 :: b1 :: b2 :: b3 :: b4 :: b5 :: b6 :: b7 :: rest) 0 =
      some (byteOf b0 b1 b2 b3 b4 b5 b6 b7) := by
  simp [packByte, List.range_succ, byteOf]

/-- Skipping the first complete group shifts the group base index. -/
theorem packByte_shift8 (b0 b1 b2 b3 b4 b5 b6 b7 : Nat) (rest : List Nat)
    (k : Nat) :
    packByte (b0 :: b1 :: b2 :: b3 :: b4 :: b5 :: b6 :: b7 :: rest) (8 * (k + 1))
      = packByte rest (8 * k) := by
  have hform : b0 :: b1 :: b2 :: b3 :: b4 :: b5 :: b6 :: b7 :: rest =
      [b0, b1, b2, b3, b4, b5, b6, b7] ++ rest := rfl
  have hidx : ∀ j,
      (b0 :: b1 :: b2 :: b3 :: b4 :: b5 :: b6 :: b7 :: rest)[8 * (k + 1) + j]? =
        rest[8 * k + j]? := by
    intro j
    rw [hform, List.getElem?_append_right (by simp; omega)]
    congr 1
    simp
    omega
  unfold packByte
  simp only [hidx]

/-- `mapM` over a successor-shifted index list is `mapM` of the shifted
body. -/
theorem mapM_map_succ {β : Type} (f : Nat → Option β) (l : List Nat) :
    (l.map (fun k => k + 1)).mapM f = l.mapM (fun k => f (k + 1)) := by
  induction l with
  | nil => rfl
  | cons a l ih => rw [List.map_cons, List.mapM_cons, List.mapM_cons, ih]

/-- An `Option`-valued `mapM` fails as soon as one element fails. -/
theorem mapM_eq_none {α β : Type} (f : α → Option β) (l : List α) (x : α)
    (hx : x ∈ l) (hfx : f x = none) : l.mapM f = none := by
  induction l with
  | nil => cases hx
  | cons a l ih =>
    rw [List.mapM_cons]
    rcases List.mem_cons.mp hx with h | h
    · subst h
      rw [hfx]
      rfl
    · cases hfa : f a with
      | none => rfl
      | some b =>
        rw [ih h]
        rfl

/-- Peeling one complete group off `pack_bits_to_bytes`. -/
theorem pack_cons8 (b0 b1 b2 b3 b4 b5 b6 b7 : Nat) (rest : List Nat) :
    pack_bits_to_bytes (b0 :: b1 :: b2 :: b3 :: b4 :: b5 :: b6 :: b7 :: rest) =
      if byteOf b0 b1 b2 b3 b4 b5 b6 b7 < 256 then
        (pack_bits_to_bytes rest).map
          (fun tl => byteOf b0 b1 b2 b3 b4 b5 b6 b7 :: tl)
      else none := by
  unfold pack_bits_to_bytes
  have hlen : (b0 :: b1 :: b2 :: b3 :: b4 :: b5 :: b6 :: b7 :: rest).length + 7 =
      rest.length + 15 := by
    simp
  rw [hlen]
  have hng : (rest.length + 15) / 8 = (rest.length + 7) / 8 + 1 := by omega
  rw [hng, List.range_succ_eq_map, List.mapM_cons]
  have hbody0 : packByte (b0 :: b1 :: b2 :: b3 :: b4 :: b5 :: b6 :: b7 :: rest)
      (8 * 0) = some (byteOf b0 b1 b2 b3 b4 b5 b6 b7) := packByte_cons8 _ _ _ _ _ _ _ _ _
  have hsucc : (List.range ((rest.length + 7) / 8)).map Nat.succ =
      (List.range ((rest.length + 7) / 8)).map (fun k => k + 1) := rfl
  rw [hbody0, hsucc, mapM_map_succ]
  simp only [packByte_shift8]
  by_cases hlt : byteOf b0 b1 b2 b3 b4 b5 b6 b7 < 256
  · rw [if_pos hlt, if_pos hlt]
    cases hrest : (List.range ((rest.length + 7) / 8)).mapM (fun k =>
        match packByte rest (8 * k) with
        | some byte => if byte < 256 then some byte else none
        | none => none) with
    | none => rfl
    | some tl => rfl
  · rw [if_neg hlt, if_neg hlt]
    rfl

/-- Expanding one byte off `unpack_bytes_to_bits` without truncation. -/
theorem unpack_none_cons (x : Nat) (bys : List Nat) :
    unpack_bytes_to_bits (x :: bys) none =
      (List.range 8).reverse.map (fun i => (x >>> i) &&& 1) ++
        unpack_bytes_to_bits bys none := by
  simp [unpack_bytes_to_bits]

/-- Truncated unpacking is a `take` of full unpacking. -/
theorem unpack_some_eq_take (bts : List Nat) (n : Nat) :
    unpack_bytes_to_bits bts (some n) = (unpack_bytes_to_bits bts none).take n := rfl

/-- Full unpacking yields eight bits per byte. -/
theorem unpack_none_length (bts : List Nat) :
    (unpack_bytes_to_bits bts none).length = 8 * bts.length := by
  induction bts with
  | nil => rfl
  | cons x bys ih =>
    rw [unpack_none_cons, List.length_append, ih]
    simp
    omega

/-- Every value produced by `unpack_bytes_to_bits` is a single bit. -/
theorem unpack_lt_two (bts : List Nat) (e : Option Nat) :
    ∀ x ∈ unpack_bytes_to_bits bts e, x < 2 := by
  have hnone : ∀ x ∈ unpack_bytes_to_bits bts none, x < 2 := by
    intro x hx
    simp [unpack_bytes_to_bits] at hx
    obtain ⟨byte, _, i, _, rfl⟩ := hx
    omega
  cases e with
  | none => exact hnone
  | some n =>
    intro x hx
    rw [unpack_some_eq_take] at hx
    exact hnone x (List.take_subset n _ hx)

/-- Packing a list of `8 * m` single-bit values succeeds, yields `m`
bytes, and unpacking them recovers the bit list. -/
theorem pack_spec (m : Nat) : ∀ bits : List Nat, bits.length = 8 * m →
    (∀ x ∈ bits, x < 2) →
    ∃ bys, pack_bits_to_bytes bits = some bys ∧ bys.length = m ∧
      unpack_bytes_to_bits bys none = bits := by
  induction m with
  | zero =>
    intro bits hlen _
    have hnil : bits = [] := List.eq_nil_of_length_eq_zero (by omega)
    subst hnil
    exact ⟨[], rfl, rfl, rfl⟩
  | succ m ih =>
    intro bits hlen hb
    rcases bits with _ | ⟨b0, bits⟩
    · simp at hlen
    rcases bits with _ | ⟨b1, bits⟩
    · simp at hlen
      omega
    rcases bits with _ | ⟨b2, bits⟩
    · simp at hlen
      omega
    rcases bits with _ | ⟨b3, bits⟩
    · simp at hlen
      omega
    rcases bits with _ | ⟨b4, bits⟩
    · simp at hlen
      omega
    rcases bits with _ | ⟨b5, bits⟩
    · simp at hlen
      omega
    rcases bits with _ | ⟨b6, bits⟩
    · simp at hlen
      omega
    rcases bits with _ | ⟨b7, rest⟩
    · simp at hlen
      omega
    have hrest : rest.length = 8 * m := by
      simp at hlen
      omega
    obtain ⟨bys, hpack, hblen, hunp⟩ := ih rest hrest
      (fun x hx => hb x (by simp [hx]))
    have hfacts := byteOf_facts b0 (hb b0 (by simp)) b1 (hb b1 (by simp))
      b2 (hb b2 (by simp)) b3 (hb b3 (by simp)) b4 (hb b4 (by simp))
      b5 (hb b5 (by simp)) b6 (hb b6 (by simp)) b7 (hb b7 (by simp))
    refine ⟨byteOf b0 b1 b2 b3 b4 b5 b6 b7 :: bys, ?_, by simp [hblen], ?_⟩
    · rw [pack_cons8, if_pos hfacts.1, hpack]
      rfl
    · rw [unpack_none_cons, hunp, hfacts.2]
      rfl

/-- The byte accumulation fold fails as soon as one group index is out
of range. -/
theorem foldlM_get_none (bits : List Nat) (i : Nat) (l : List Nat) (j : Nat)
    (hj : j ∈ l) (hnone : bits[i + j]? = none) : ∀ acc : Nat,
    l.foldlM (fun byte j2 => (bits[i + j2]?).map (fun bit => (byte <<< 1) ||| bit))
      acc = none := by
  induction l with
  | nil => cases hj
  | cons a l ihl =>
    intro acc
    rw [List.foldlM_cons]
    rcases List.mem_cons.mp hj with h | h
    · subst h
      rw [hnone]
      rfl
    · cases hfa : bits[i + a]? with
      | none => rfl
      | some b => exact ihl h _

/-- The inner byte loop fails when the group extends past the end of
the bit list. -/
theorem packByte_oob (bits : List Nat) (i : Nat) (h : bits.length < i + 8) :
    packByte bits i = none := by
  unfold packByte
  rcases Nat.lt_or_ge i bits.length with hi | hi
  · exact foldlM_get_none bits i (List.range 8) (bits.length - i)
      (by rw [List.mem_range]; omega) (List.getElem?_eq_none (by omega)) 0
  · exact foldlM_get_none bits i (List.range 8) 0
      (by rw [List.mem_range]; omega) (List.getElem?_eq_none (by omega)) 0

/-- `pack_bits_to_bytes` fails on every bit list whose length is not a
multiple of eight: the final incomplete group indexes past the end. -/
theorem pack_fail (bits : List Nat) (h : bits.length % 8 ≠ 0) :
    pack_bits_to_bytes bits = none := by
  unfold pack_bits_to_bytes
  apply mapM_eq_none _ _ (bits.length / 8)
  · rw [List.mem_range]
    omega
  · rw [packByte_oob bits (8 * (bits.length / 8)) (by omega)]

/-! ### Success analysis of the embedding loop -/

/-- One-step unrolling of the embedding loop from the right. -/
theorem embed_loop_succ (flat : List Pixel) (dbits : List Nat) (n : Nat) :
    embed_loop flat dbits (n + 1) =
      (embed_loop flat dbits n).bind (fun st =>
        (st.1[n]?).bind (fun p =>
          (dbits[n]?).bind (fun dbit =>
            some (st.1.set n (unfold (clear_lsb (fold p.1 p.2.1 p.2.2) ||| dbit)),
              st.2 ++ [fold p.1 p.2.1 p.2.2 &&& 1])))) := by
  unfold embed_loop
  rw [List.range_succ, List.foldlM_append]
  cases hst : embed_loop flat dbits n with
  | none =>
    unfold embed_loop at hst
    rw [hst]
    rfl
  | some st =>
    unfold embed_loop at hst
    rw [hst]
    simp only [Option.bind_eq_bind, Option.some_bind, List.foldlM_cons,
      List.foldlM_nil, bind_pure]
    cases hp : st.1[n]? with
    | none => rfl
    | some p =>
      cases hd : dbits[n]? with
      | none => rfl
      | some dbit => rfl

/-- A successful embedding run fixes the lengths: `n` recorded bits, an
unchanged grid size, and both index sources large enough. -/
theorem embed_loop_facts (n : Nat) : ∀ (flat : List Pixel) (dbits : List Nat)
    (flat2 : List Pixel) (lsbs : List Nat),
    embed_loop flat dbits n = some (flat2, lsbs) →
    lsbs.length = n ∧ flat2.length = flat.length ∧
      n ≤ flat.length ∧ n ≤ dbits.length := by
  induction n with
  | zero =>
    intro flat dbits flat2 lsbs h
    have h0 : embed_loop flat dbits 0 = some (flat, []) := rfl
    rw [h0] at h
    simp only [Option.some.injEq, Prod.mk.injEq] at h
    obtain ⟨h1, h2⟩ := h
    subst h1
    subst h2
    simp
  | succ n ih =>
    intro flat dbits flat2 lsbs h
    rw [embed_loop_succ] at h
    cases hst : embed_loop flat dbits n with
    | none =>
      rw [hst] at h
      simp at h
    | some st =>
      rw [hst] at h
      simp only [Option.some_bind] at h
      obtain ⟨hlsb, hflen, hfl, hdl⟩ := ih flat dbits st.1 st.2 (by rw [hst])
      cases hp : st.1[n]? with
      | none =>
        rw [hp] at h
        simp at h
      | some p =>
        rw [hp] at h
        cases hd : dbits[n]? with
        | none =>
          rw [hd] at h
          simp at h
        | some dbit =>
          rw [hd] at h
          simp only [Option.some_bind, Option.some.injEq, Prod.mk.injEq] at h
          obtain ⟨h1, h2⟩ := h
          have hnf : ¬ st.1.length ≤ n := by
            intro hle
            rw [List.getElem?_eq_none hle] at hp
            cases hp
          have hnd : ¬ dbits.length ≤ n := by
            intro hle
            rw [List.getElem?_eq_none hle] at hd
            cases hd
          subst h1
          subst h2
          simp [hlsb]
          omega

/-- The embedded grid pointwise: below `NUM_PIXELS` each pixel keeps its
R and G channels and gets the digest bit as the parity of its B
channel; beyond, it is the input grid. -/
theorem embed_loop_nice (flat : List Pixel) (dbits : List Nat)
    (hlen : NUM_PIXELS ≤ flat.length)
    (hpix : ∀ p ∈ flat, p.1 < 256 ∧ p.2.1 < 256 ∧ p.2.2 < 256)
    (hdlen : NUM_PIXELS ≤ dbits.length)
    (hdbit : ∀ d ∈ dbits, d < 2) :
    ∃ flat2 lsbs, embed_loop flat dbits NUM_PIXELS = some (flat2, lsbs)
      ∧ flat2.length = flat.length
      ∧ lsbs = (flat.take NUM_PIXELS).map (fun p => fold p.1 p.2.1 p.2.2 &&& 1)
      ∧ (∀ i, i < NUM_PIXELS → ∀ p, flat[i]? = some p → ∀ d, dbits[i]? = some d →
          flat2[i]? = some (p.1, p.2.1, 2 * (p.2.2 / 2) + d))
      ∧ (∀ i, NUM_PIXELS ≤ i → flat2[i]? = flat[i]?) := by
  obtain ⟨flat2, lsbs, heq, hflen, hlsbs, hbelow, habove⟩ :=
    embed_loop_spec flat dbits NUM_PIXELS hlen hdlen
  refine ⟨flat2, lsbs, heq, hflen, hlsbs, ?_, habove⟩
  intro i hi p hp d hd
  rw [hbelow i hi p hp d hd]
  obtain ⟨hr, hg, hb⟩ := hpix p (List.getElem?_mem hp)
  rw [embed_pixel_eq p.1 p.2.1 p.2.2 d hr hg hb (hdbit d (List.getElem?_mem hd))]

/-- Restoring the embedded grid with the recorded LSBs recovers the
original grid exactly. -/
theorem restore_inverts_embed (flat flat2 : List Pixel) (dbits lsbs : List Nat)
    (hlen : NUM_PIXELS ≤ flat.length)
    (hpix : ∀ p ∈ flat, p.1 < 256 ∧ p.2.1 < 256 ∧ p.2.2 < 256)
    (hdlen : NUM_PIXELS ≤ dbits.length)
    (hdbit : ∀ d ∈ dbits, d < 2)
    (hembed : embed_loop flat dbits NUM_PIXELS = some (flat2, lsbs)) :
    restore_loop flat2 lsbs NUM_PIXELS = some flat := by
  obtain ⟨flat2x, lsbsx, heq, hflen, hlsbs, hbelow, habove⟩ :=
    embed_loop_spec flat dbits NUM_PIXELS hlen hdlen
  rw [hembed] at heq
  simp only [Option.some.injEq, Prod.mk.injEq] at heq
  obtain ⟨hfx, hlx⟩ := heq
  subst hfx
  subst hlx
  have hlsbs_len : lsbs.length = NUM_PIXELS := by
    rw [hlsbs]
    simp
    omega
  obtain ⟨flat3, hres, hflen3, hbelow3, habove3⟩ :=
    restore_loop_spec flat2 lsbs NUM_PIXELS (by omega) (by omega)
  rw [hres]
  have hext : flat3 = flat := by
    apply List.ext_getElem?
    intro i
    rcases Nat.lt_or_ge i NUM_PIXELS with hi | hi
    · cases hp : flat[i]? with
      | none =>
        rw [List.getElem?_eq_none_iff] at hp
        omega
      | some p =>
        obtain ⟨r, g, b⟩ := p
        cases hd : dbits[i]? with
        | none =>
          rw [List.getElem?_eq_none_iff] at hd
          omega
        | some d =>
          obtain ⟨hr, hg, hb⟩ := hpix (r, g, b) (List.getElem?_mem hp)
          have hr2 : r < 256 := hr
          have hg2 : g < 256 := hg
          have hb2 : b < 256 := hb
          have hdlt : d < 2 := hdbit d (List.getElem?_mem hd)
          have hq : flat2[i]? = some (r, g, 2 * (b / 2) + d) := by
            simp only [hbelow i hi (r, g, b) hp d hd]
            rw [embed_pixel_eq r g b d hr2 hg2 hb2 hdlt]
          have hlat : lsbs[i]? = some (fold r g b &&& 1) := by
            simp only [hlsbs, List.getElem?_map, List.getElem?_take_of_lt hi, hp]
            rfl
          simp only [hbelow3 i hi (r, g, 2 * (b / 2) + d) hq (fold r g b &&& 1) hlat]
          rw [lsb_fold r g b hg2 hb2]
          rw [embed_pixel_eq r g (2 * (b / 2) + d) (b % 2) hr2 hg2 (by omega) (by omega)]
          have hbeq : 2 * ((2 * (b / 2) + d) / 2) + b % 2 = b := by omega
          rw [hbeq]
    · rw [habove3 i hi, habove i hi]
  rw [hext]

/-- Extracting from the embedded grid returns exactly the digest bits
that were embedded. -/
theorem extract_after_embed (flat flat2 : List Pixel) (dbits lsbs : List Nat)
    (hlen : NUM_PIXELS ≤ flat.length)
    (hpix : ∀ p ∈ flat, p.1 < 256 ∧ p.2.1 < 256 ∧ p.2.2 < 256)
    (hdlen : dbits.length = NUM_PIXELS)
    (hdbit : ∀ d ∈ dbits, d < 2)
    (hembed : embed_loop flat dbits NUM_PIXELS = some (flat2, lsbs)) :
    extract_loop flat2 NUM_PIXELS = some dbits := by
  obtain ⟨flat2x, lsbsx, heq, hflen, hlsbs, hbelow, habove⟩ :=
    embed_loop_spec flat dbits NUM_PIXELS hlen (by omega)
  rw [hembed] at heq
  simp only [Option.some.injEq, Prod.mk.injEq] at heq
  obtain ⟨hfx, hlx⟩ := heq
  subst hfx
  subst hlx
  rw [extract_loop_spec flat2 NUM_PIXELS (by omega)]
  have hext : (flat2.take NUM_PIXELS).map (fun p => fold p.1 p.2.1 p.2.2 &&& 1)
      = dbits := by
    apply List.ext_getElem?
    intro i
    rcases Nat.lt_or_ge i NUM_PIXELS with hi | hi
    · cases hp : flat[i]? with
      | none =>
        rw [List.getElem?_eq_none_iff] at hp
        omega
      | some p =>
        obtain ⟨r, g, b⟩ := p
        cases hd : dbits[i]? with
        | none =>
          rw [List.getElem?_eq_none_iff] at hd
          omega
        | some d =>
          obtain ⟨hr, hg, hb⟩ := hpix (r, g, b) (List.getElem?_mem hp)
          have hr2 : r < 256 := hr
          have hg2 : g < 256 := hg
          have hb2 : b < 256 := hb
          have hdlt : d < 2 := hdbit d (List.getElem?_mem hd)
          have hq : flat2[i]? = some (r, g, 2 * (b / 2) + d) := by
            simp only [hbelow i hi (r, g, b) hp d hd]
            rw [embed_pixel_eq r g b d hr2 hg2 hb2 hdlt]
          rw [List.getElem?_map, List.getElem?_take_of_lt hi, hq]
          show some (fold r g (2 * (b / 2) + d) &&& 1) = some d
          rw [lsb_fold r g (2 * (b / 2) + d) hg2 (by omega)]
          have : (2 * (b / 2) + d) % 2 = d := by omega
          rw [this]
    · have h1 : ((flat2.take NUM_PIXELS).map
          (fun p => fold p.1 p.2.1 p.2.2 &&& 1))[i]? = none := by
        apply List.getElem?_eq_none
        simp
        omega
      have h2 : dbits[i]? = none := List.getElem?_eq_none (by omega)
      rw [h1, h2]
  rw [hext]

/-! ### Counting agreements between bit sequences -/

/-- Zipping a list with itself makes every position agree. -/
theorem countP_zip_self (l : List Nat) :
    (l.zip l).countP (fun ab => ab.1 == ab.2) = l.length := by
  induction l with
  | nil => rfl
  | cons a l ih =>
    rw [List.zip_cons_cons, List.countP_cons]
    simp [ih]

/-- On equal-length lists the zip-based agreement count of the source
equals the index-based count of the specification. -/
theorem countP_zip_range (n : Nat) : ∀ l₁ l₂ : List Nat,
    l₁.length = n → l₂.length = n →
    (l₁.zip l₂).countP (fun ab => ab.1 == ab.2) =
      (List.range n).countP (fun i => l₁[i]? == l₂[i]?) := by
  induction n with
  | zero =>
    intro l₁ l₂ h1 h2
    rw [List.eq_nil_of_length_eq_zero h1, List.eq_nil_of_length_eq_zero h2]
    rfl
  | succ n ih =>
    intro l₁ l₂ h1 h2
    rcases l₁ with _ | ⟨a, l₁⟩
    · simp at h1
    rcases l₂ with _ | ⟨b, l₂⟩
    · simp at h2
    rw [List.zip_cons_cons, List.countP_cons, List.range_succ_eq_map,
      List.countP_cons, List.countP_map]
    have hcomp : ((fun i => ((a :: l₁)[i]? == (b :: l₂)[i]?)) ∘ Nat.succ) =
        fun i => (l₁[i]? == l₂[i]?) := by
      funext i
      simp
    rw [hcomp, ih l₁ l₂ (by simpa using h1) (by simpa using h2)]
    have hhead : ((a :: l₁)[0]? == (b :: l₂)[0]?) = (a == b) := by
      simp
    rw [hhead]

/-- On equal-length lists, full positionwise agreement is exactly list
equality. -/
theorem countP_zip_eq_iff (n : Nat) : ∀ l₁ l₂ : List Nat,
    l₁.length = n → l₂.length = n →
    ((l₁.zip l₂).countP (fun ab => ab.1 == ab.2) = n ↔ l₁ = l₂) := by
  induction n with
  | zero =>
    intro l₁ l₂ h1 h2
    rw [List.eq_nil_of_length_eq_zero h1, List.eq_nil_of_length_eq_zero h2]
    simp
  | succ n ih =>
    intro l₁ l₂ h1 h2
    rcases l₁ with _ | ⟨a, l₁⟩
    · simp at h1
    rcases l₂ with _ | ⟨b, l₂⟩
    · simp at h2
    have h1n : l₁.length = n := by simpa using h1
    have h2n : l₂.length = n := by simpa using h2
    rw [List.zip_cons_cons, List.countP_cons]
    have hbound : (l₁.zip l₂).countP (fun ab => ab.1 == ab.2) ≤ n := by
      have := List.countP_le_length (p := fun ab : Nat × Nat => ab.1 == ab.2)
        (l := l₁.zip l₂)
      rw [List.length_zip, h1n, h2n] at this
      omega
    constructor
    · intro h
      by_cases hab : a = b
      · subst hab
        have hcnt : (l₁.zip l₂).countP (fun ab => ab.1 == ab.2) = n := by
          simp at h
          omega
        rw [(ih l₁ l₂ h1n h2n).mp hcnt]
      · have : ((a == b) : Bool) = false := by
          simp [hab]
        rw [this] at h
        simp at h
        omega
    · intro h
      simp only [List.cons.injEq] at h
      obtain ⟨hab, hl⟩ := h
      subst hab
      subst hl
      rw [countP_zip_self]
      simp [h1n]

/-! ### Pipeline-level helper lemmas -/

/-- A successful `Option`-valued `mapM` preserves the length. -/
theorem mapM_length {α β : Type} (f : α → Option β) :
    ∀ (l : List α) (l2 : List β), l.mapM f = some l2 → l2.length = l.length := by
  intro l
  induction l with
  | nil =>
    intro l2 h
    rw [List.mapM_nil] at h
    cases h
    rfl
  | cons a l ih =>
    intro l2 h
    rw [List.mapM_cons] at h
    cases hfa : f a with
    | none =>
      rw [hfa] at h
      simp at h
    | some b =>
      rw [hfa] at h
      cases hml : l.mapM f with
      | none =>
        rw [hml] at h
        simp at h
      | some bs =>
        rw [hml] at h
        simp at h
        subst h
        simp [ih bs hml]

/-- A successful extraction returns exactly `n` bits. -/
theorem extract_loop_length (flat : List Pixel) (n : Nat) (l : List Nat)
    (h : extract_loop flat n = some l) : l.length = n := by
  unfold extract_loop at h
  have := mapM_length _ _ _ h
  simpa using this

/-- A successful pack returns one byte per (complete) group. -/
theorem pack_length (bits : List Nat) (bys : List Nat)
    (h : pack_bits_to_bytes bits = some bys) :
    bys.length = (bits.length + 7) / 8 := by
  unfold pack_bits_to_bytes at h
  have := mapM_length _ _ _ h
  simpa using this

/-- Truncated unpacking of a 32-byte digest yields exactly 256 bits. -/
theorem unpack_digest_length (digest : List Nat) (hlen : digest.length = 32) :
    (unpack_bytes_to_bits digest (some HASH_BITS)).length = HASH_BITS := by
  rw [unpack_some_eq_take, List.length_take, unpack_none_length, hlen]
  rfl

/-- All pixels of the embedded grid are byte-valued when the input grid
is. -/
theorem embed_output_bounded (flat flat2 : List Pixel) (dbits lsbs : List Nat)
    (hlen : NUM_PIXELS ≤ flat.length)
    (hpix : ∀ p ∈ flat, p.1 < 256 ∧ p.2.1 < 256 ∧ p.2.2 < 256)
    (hdlen : NUM_PIXELS ≤ dbits.length)
    (hdbit : ∀ d ∈ dbits, d < 2)
    (hembed : embed_loop flat dbits NUM_PIXELS = some (flat2, lsbs)) :
    ∀ p ∈ flat2, p.1 < 256 ∧ p.2.1 < 256 ∧ p.2.2 < 256 := by
  obtain ⟨flat2x, lsbsx, heq, hflen, hlsbs, hbelow, habove⟩ :=
    embed_loop_spec flat dbits NUM_PIXELS hlen hdlen
  rw [hembed] at heq
  simp only [Option.some.injEq, Prod.mk.injEq] at heq
  obtain ⟨hfx, hlx⟩ := heq
  subst hfx
  subst hlx
  intro q hq
  obtain ⟨i, hilt, hqi⟩ := List.getElem_of_mem hq
  have hqi2 : flat2[i]? = some q := by
    rw [List.getElem?_eq_getElem hilt, hqi]
  rcases Nat.lt_or_ge i NUM_PIXELS with hi | hi
  · cases hp : flat[i]? with
    | none =>
      rw [List.getElem?_eq_none_iff] at hp
      omega
    | some p =>
      obtain ⟨r, g, b⟩ := p
      cases hd : dbits[i]? with
      | none =>
        rw [List.getElem?_eq_none_iff] at hd
        omega
      | some d =>
        obtain ⟨hr, hg, hb⟩ := hpix (r, g, b) (List.getElem?_mem hp)
        have hr2 : r < 256 := hr
        have hg2 : g < 256 := hg
        have hb2 : b < 256 := hb
        have hdlt : d < 2 := hdbit d (List.getElem?_mem hd)
        have hq2 : flat2[i]? = some (r, g, 2 * (b / 2) + d) := by
          simp only [hbelow i hi (r, g, b) hp d hd]
          rw [embed_pixel_eq r g b d hr2 hg2 hb2 hdlt]
        rw [hq2] at hqi2
        cases hqi2
        refine ⟨hr2, hg2, ?_⟩
        show 2 * (b / 2) + d < 256
        omega
  · rw [habove i hi] at hqi2
    exact hpix q (List.getElem?_mem hqi2)

/-- Forward construction of a successful `/secure` run from the
validity of its inputs. -/
theorem secure_ok_build (decode : List Nat → Option (List Pixel × String))
    (encode : List Pixel → String → List Nat) (sha256 : List Nat → List Nat)
    (data : List Nat) (flat : List Pixel) (fmt : String)
    (hsize : MIN_BYTES ≤ data.length)
    (hdec : decode data = some (flat, fmt))
    (hlen : NUM_PIXELS ≤ flat.length)
    (hhash : (sha256 (tobytes flat)).length = 32) :
    ∃ flat2 lsbs appended,
      embed_loop flat (unpack_bytes_to_bits (sha256 (tobytes flat)) (some HASH_BITS))
          NUM_PIXELS = some (flat2, lsbs)
      ∧ lsbs.length = NUM_PIXELS
      ∧ pack_bits_to_bytes lsbs = some appended
      ∧ appended.length = APPENDED_BYTES
      ∧ secure_image decode encode sha256 data = .ok (encode flat2 fmt ++ appended) := by
  have hdblen : (unpack_bytes_to_bits (sha256 (tobytes flat)) (some HASH_BITS)).length
      = HASH_BITS := unpack_digest_length _ hhash
  obtain ⟨flat2, lsbs, hembed, hflen, hlsbs, hbelow, habove⟩ :=
    embed_loop_spec flat (unpack_bytes_to_bits (sha256 (tobytes flat)) (some HASH_BITS))
      NUM_PIXELS hlen (by rw [hdblen])
  have hlsbs_len : lsbs.length = NUM_PIXELS := by
    rw [hlsbs]
    simp
    omega
  have hlsbs_bits : ∀ x ∈ lsbs, x < 2 := by
    intro x hx
    rw [hlsbs] at hx
    obtain ⟨p, _, hpx⟩ := List.exists_of_mem_map hx
    rw [Nat.and_one_is_mod] at hpx
    omega
  obtain ⟨appended, hpack, happlen, _⟩ := pack_spec 32 lsbs (by rw [hlsbs_len])
    hlsbs_bits
  refine ⟨flat2, lsbs, appended, hembed, hlsbs_len, hpack, by rw [happlen]; rfl, ?_⟩
  unfold secure_image
  rw [if_neg (by omega)]
  rw [hdec]
  simp only [hembed, hpack]

/-- Inversion of a successful `/secure` run. -/
theorem secure_ok_inv (decode : List Nat → Option (List Pixel × String))
    (encode : List Pixel → String → List Nat) (sha256 : List Nat → List Nat)
    (data final : List Nat)
    (h : secure_image decode encode sha256 data = .ok final) :
    MIN_BYTES ≤ data.length ∧
    ∃ flat fmt flat2 lsbs appended,
      decode data = some (flat, fmt) ∧
      embed_loop flat (unpack_bytes_to_bits (sha256 (tobytes flat)) (some HASH_BITS))
          NUM_PIXELS = some (flat2, lsbs) ∧
      pack_bits_to_bytes lsbs = some appended ∧
      final = encode flat2 fmt ++ appended := by
  unfold secure_image at h
  split at h
  · simp at h
  next hsize =>
    split at h
    · simp at h
    next flat fmt hdec =>
      split at h
      · simp at h
      next flat2 lsbs hembed =>
        split at h
        · simp at h
        next appended hpack =>
          simp only [Except.ok.injEq] at h
          exact ⟨by omega, flat, fmt, flat2, lsbs, appended, hdec, hembed, hpack,
            h.symm⟩

/-- Inversion of a successful `/authenticate` run. -/
theorem authenticate_ok_inv (decode : List Nat → Option (List Pixel × String))
    (encode : List Pixel → String → List Nat) (sha256 : List Nat → List Nat)
    (data : List Nat) (r : AuthResult)
    (h : authenticate_image decode encode sha256 data = .ok r) :
    MIN_BYTES + APPENDED_BYTES ≤ data.length ∧
    ∃ flat fmt embedded_bits restored,
      decode (data.take (data.length - APPENDED_BYTES)) = some (flat, fmt) ∧
      extract_loop flat NUM_PIXELS = some embedded_bits ∧
      restore_loop flat
        (unpack_bytes_to_bits (data.drop (data.length - APPENDED_BYTES))
          (some HASH_BITS)) NUM_PIXELS = some restored ∧
      r.authentic = (unpack_bytes_to_bits (sha256 (tobytes restored)) (some HASH_BITS)
        == embedded_bits) ∧
      r.match_count = ((unpack_bytes_to_bits (sha256 (tobytes restored))
        (some HASH_BITS)).zip embedded_bits).countP (fun ab => ab.1 == ab.2) ∧
      r.auth_percent = ((r.match_count : ℚ) / (HASH_BITS : ℚ)) * 100 ∧
      r.restored = restored ∧ r.restored_image_bytes = encode restored fmt ∧
      r.fmt = fmt := by
  unfold authenticate_image at h
  split at h
  · simp at h
  next hsize =>
    split at h
    · simp at h
    next flat fmt hdec =>
      split at h
      · simp at h
      next embedded_bits hx =>
        split at h
        · simp at h
        next restored hres =>
          simp only [Except.ok.injEq] at h
          subst h
          exact ⟨by omega, flat, fmt, embedded_bits, restored, hdec, hx, hres,
            rfl, rfl, rfl, rfl, rfl, rfl⟩

/-- Forward construction of a successful `/authenticate` run from its
intermediate results. -/
theorem authenticate_ok_build (decode : List Nat → Option (List Pixel × String))
    (encode : List Pixel → String → List Nat) (sha256 : List Nat → List Nat)
    (data : List Nat) (flat : List Pixel) (fmt : String)
    (embedded_bits : List Nat) (restored : List Pixel)
    (hsize : MIN_BYTES + APPENDED_BYTES ≤ data.length)
    (hdec : decode (data.take (data.length - APPENDED_BYTES)) = some (flat, fmt))
    (hx : extract_loop flat NUM_PIXELS = some embedded_bits)
    (hres : restore_loop flat
      (unpack_bytes_to_bits (data.drop (data.length - APPENDED_BYTES))
        (some HASH_BITS)) NUM_PIXELS = some restored) :
    authenticate_image decode encode sha256 data = .ok
      { authentic := unpack_bytes_to_bits (sha256 (tobytes restored))
          (some HASH_BITS) == embedded_bits,
        match_count := ((unpack_bytes_to_bits (sha256 (tobytes restored))
          (some HASH_BITS)).zip embedded_bits).countP (fun ab => ab.1 == ab.2),
        auth_percent := ((((unpack_bytes_to_bits (sha256 (tobytes restored))
          (some HASH_BITS)).zip embedded_bits).countP
            (fun ab => ab.1 == ab.2) : ℚ) / (HASH_BITS : ℚ)) * 100,
        restored := restored,
        restored_image_bytes := encode restored fmt, fmt := fmt } := by
  unfold authenticate_image
  rw [if_neg (by omega)]
  rw [hdec]
  simp only [hx, hres]

/-! ### Evaluation of the codec on constant grids -/

/-- Embedding a constant grid with a constant digest bit. -/
theorem embed_loop_replicate (r g b d : Nat) (hr : r < 256) (hg : g < 256)
    (hb : b < 256) (hd : d < 2) :
    embed_loop (List.replicate NUM_PIXELS (r, g, b))
        (List.replicate NUM_PIXELS d) NUM_PIXELS
      = some (List.replicate NUM_PIXELS ((r, g, 2 * (b / 2) + d) : Pixel),
              List.replicate NUM_PIXELS (b % 2)) := by
  obtain ⟨flat2, lsbs, hembed, hflen, hlsbs, hbelow, habove⟩ :=
    embed_loop_spec (List.replicate NUM_PIXELS (r, g, b))
      (List.replicate NUM_PIXELS d) NUM_PIXELS (by simp) (by simp)
  rw [hembed]
  have hlsbs2 : lsbs = List.replicate NUM_PIXELS (b % 2) := by
    rw [hlsbs, List.take_of_length_le (by simp), List.map_replicate]
    rw [lsb_fold r g b hg hb]
  have hflat2 : flat2 = List.replicate NUM_PIXELS ((r, g, 2 * (b / 2) + d) : Pixel) := by
    apply List.ext_getElem?
    intro i
    rcases Nat.lt_or_ge i NUM_PIXELS with hi | hi
    · have hp : (List.replicate NUM_PIXELS ((r, g, b) : Pixel))[i]? = some (r, g, b) :=
        List.getElem?_replicate_of_lt hi
      have hdd : (List.replicate NUM_PIXELS d)[i]? = some d :=
        List.getElem?_replicate_of_lt hi
      rw [List.getElem?_replicate_of_lt hi]
      simp only [hbelow i hi (r, g, b) hp d hdd]
      rw [embed_pixel_eq r g b d hr hg hb hd]
    · rw [habove i hi, List.getElem?_eq_none (by simp; omega),
        List.getElem?_eq_none (by simp; omega)]
  rw [hlsbs2, hflat2]

/-- Restoring a constant grid with a constant bit. -/
theorem restore_loop_replicate (r g b d : Nat) (hr : r < 256) (hg : g < 256)
    (hb : b < 256) (hd : d < 2) :
    restore_loop (List.replicate NUM_PIXELS (r, g, b))
        (List.replicate NUM_PIXELS d) NUM_PIXELS
      = some (List.replicate NUM_PIXELS ((r, g, 2 * (b / 2) + d) : Pixel)) := by
  obtain ⟨flat3, hres, hflen3, hbelow3, habove3⟩ :=
    restore_loop_spec (List.replicate NUM_PIXELS (r, g, b))
      (List.replicate NUM_PIXELS d) NUM_PIXELS (by simp) (by simp)
  rw [hres]
  have hflat3 : flat3 = List.replicate NUM_PIXELS ((r, g, 2 * (b / 2) + d) : Pixel) := by
    apply List.ext_getElem?
    intro i
    rcases Nat.lt_or_ge i NUM_PIXELS with hi | hi
    · have hp : (List.replicate NUM_PIXELS ((r, g, b) : Pixel))[i]? = some (r, g, b) :=
        List.getElem?_replicate_of_lt hi
      have hdd : (List.replicate NUM_PIXELS d)[i]? = some d :=
        List.getElem?_replicate_of_lt hi
      rw [List.getElem?_replicate_of_lt hi]
      simp only [hbelow3 i hi (r, g, b) hp d hdd]
      rw [embed_pixel_eq r g b d hr hg hb hd]
    · rw [habove3 i hi, List.getElem?_eq_none (by simp; omega),
        List.getElem?_eq_none (by simp; omega)]
  rw [hflat3]

/-- Extracting from a constant grid. -/
theorem extract_loop_replicate (r g b : Nat) (hg : g < 256) (hb : b < 256) :
    extract_loop (List.replicate NUM_PIXELS (r, g, b)) NUM_PIXELS
      = some (List.replicate NUM_PIXELS (b % 2)) := by
  rw [extract_loop_spec _ _ (by simp)]
  rw [List.take_of_length_le (by simp), List.map_replicate]
  rw [lsb_fold r g b hg hb]

/-- Unpacking a run of identical bytes, each of which unpacks to eight
copies of one bit. -/
theorem unpack_replicate_byte (byte v : Nat)
    (hbyte : (List.range 8).reverse.map (fun i => (byte >>> i) &&& 1) =
      List.replicate 8 v) :
    ∀ n, unpack_bytes_to_bits (List.replicate n byte) none =
      List.replicate (8 * n) v := by
  intro n
  induction n with
  | zero => rfl
  | succ n ih =>
    rw [List.replicate_succ, unpack_none_cons, hbyte, ih]
    have h8 : 8 * (n + 1) = 8 + 8 * n := by ring
    rw [h8, List.replicate_add]

/-- Truncated unpacking of 32 identical bytes to 256 identical bits. -/
theorem unpack_replicate32 (byte v : Nat)
    (hbyte : (List.range 8).reverse.map (fun i => (byte >>> i) &&& 1) =
      List.replicate 8 v) :
    unpack_bytes_to_bits (List.replicate 32 byte) (some HASH_BITS) =
      List.replicate 256 v := by
  rw [unpack_some_eq_take, unpack_replicate_byte byte v hbyte 32]
  rw [List.take_of_length_le (by rw [List.length_replicate])]

/-- Packing a run of identical bits. -/
theorem pack_replicate (bit byte : Nat)
    (hbyte : byteOf bit bit bit bit bit bit bit bit = byte) (hlt : byte < 256) :
    ∀ m, pack_bits_to_bytes (List.replicate (8 * m) bit) =
      some (List.replicate m byte) := by
  intro m
  induction m with
  | zero =>
    simp [pack_bits_to_bytes]
    rfl
  | succ m ih =>
    have hsplit : List.replicate (8 * (m + 1)) bit =
        bit :: bit :: bit :: bit :: bit :: bit :: bit :: bit ::
          List.replicate (8 * m) bit := by
      have h8 : 8 * (m + 1) = 8 * m + 8 := by ring
      rw [h8]
      rfl
    rw [hsplit, pack_cons8, hbyte, if_pos hlt, ih, List.replicate_succ]
    rfl

/-! ### A concrete lossless raw codec and concrete pipeline runs -/

/-- A raw pixel parser: reads consecutive byte triples as pixels,
dropping an incomplete final triple. -/
def parsePixels : List Nat → List Pixel
  | r :: g :: b :: rest => (r, g, b) :: parsePixels rest
  | _ => []

/-- `parsePixels` inverts `tobytes`. -/
theorem parsePixels_tobytes (g : List Pixel) : parsePixels (tobytes g) = g := by
  induction g with
  | nil => rfl
  | cons p l ih =>
    obtain ⟨r, gg, b⟩ := p
    show (r, gg, b) :: parsePixels (tobytes l) = (r, gg, b) :: l
    rw [ih]

/-- `tobytes` produces three bytes per pixel. -/
theorem tobytes_length (g : List Pixel) : (tobytes g).length = 3 * g.length := by
  induction g with
  | nil => rfl
  | cons p l ih =>
    show ((tobytes l).length + 3) = 3 * (l.length + 1)
    omega

/-- `tobytes` of a byte-valued grid is byte-valued. -/
theorem tobytes_bounded (g : List Pixel)
    (hg : ∀ p ∈ g, p.1 < 256 ∧ p.2.1 < 256 ∧ p.2.2 < 256) :
    ∀ x ∈ tobytes g, x < 256 := by
  intro x hx
  unfold tobytes at hx
  obtain ⟨p, hp, hxp⟩ := List.exists_of_mem_flatMap hx
  obtain ⟨h1, h2, h3⟩ := hg p hp
  simp at hxp
  rcases hxp with h | h | h <;> omega

/-- `tobytes` of a constant single-valued grid. -/
theorem tobytes_replicate (n a : Nat) :
    tobytes (List.replicate n ((a, a, a) : Pixel)) = List.replicate (3 * n) a := by
  induction n with
  | zero => rfl
  | succ n ih =>
    rw [List.replicate_succ]
    show a :: a :: a :: tobytes (List.replicate n ((a, a, a) : Pixel)) = _
    rw [ih]
    have h3 : 3 * (n + 1) = 3 + 3 * n := by ring
    rw [h3, List.replicate_add]
    rfl

/-- A lossless raw RGB codec used to instantiate the external image
collaborator: byte-aligned, byte-valued buffers decode to their pixel
triples; re-encoding is `tobytes`. -/
def decodeRaw : List Nat → Option (List Pixel × String) := fun bs =>
  if bs.length % 3 = 0 ∧ ∀ x ∈ bs, x < 256 then some (parsePixels bs, "PNG")
  else none

/-- The raw encoder (the image format parameter is ignored). -/
def encodeRaw : List Pixel → String → List Nat := fun g _ => tobytes g

/-- The raw codec round-trips every byte-valued grid. -/
theorem decodeRaw_encodeRaw (g : List Pixel)
    (hg : ∀ p ∈ g, p.1 < 256 ∧ p.2.1 < 256 ∧ p.2.2 < 256) (fmt : String) :
    decodeRaw (encodeRaw g fmt) = some (g, "PNG") := by
  unfold decodeRaw encodeRaw
  rw [if_pos ⟨by rw [tobytes_length]; omega, tobytes_bounded g hg⟩,
    parsePixels_tobytes]

/-- The pixels parsed from a byte-valued buffer are byte-valued. -/
theorem parsePixels_bounded (n : Nat) : ∀ bs : List Nat, bs.length = n →
    (∀ x ∈ bs, x < 256) →
    ∀ p ∈ parsePixels bs, p.1 < 256 ∧ p.2.1 < 256 ∧ p.2.2 < 256 := by
  induction n using Nat.strong_induction_on with
  | _ n ih =>
    intro bs hlen hb p hp
    match bs, hlen with
    | [], hlen => exact absurd hp (by simp [parsePixels])
    | [x], hlen => exact absurd hp (by simp [parsePixels])
    | [x, y], hlen => exact absurd hp (by simp [parsePixels])
    | x :: y :: z :: rest, hlen =>
      rw [show parsePixels (x :: y :: z :: rest) = (x, y, z) :: parsePixels rest
        from rfl] at hp
      rcases List.mem_cons.mp hp with h | h
      · subst h
        exact ⟨hb x (by simp), hb y (by simp), hb z (by simp)⟩
      · exact ih rest.length (by simp at hlen; omega) rest rfl
          (fun w hw => hb w (by simp [hw])) p h

/-- Every grid produced by the raw codec is byte-valued. -/
theorem decodeRaw_bounded (bs : List Nat) (flat : List Pixel) (fmt : String)
    (h : decodeRaw bs = some (flat, fmt)) :
    ∀ p ∈ flat, p.1 < 256 ∧ p.2.1 < 256 ∧ p.2.2 < 256 := by
  unfold decodeRaw at h
  by_cases hcond : (bs.length % 3 = 0 ∧ ∀ x ∈ bs, x < 256)
  · rw [if_pos hcond] at h
    simp only [Option.some.injEq, Prod.mk.injEq] at h
    obtain ⟨hflat, _⟩ := h
    subst hflat
    exact parsePixels_bounded bs.length bs rfl hcond.2
  · rw [if_neg hcond] at h
    cases h

/-- A stand-in for the SHA-256 collaborator: a fixed 32-byte digest.
(The pipelines only use that the digest function is a function producing
32 bytes.) -/
def hashZ : List Nat → List Nat := fun _ => List.replicate 32 0

/-- A constant all-(7,7,7) grid of `NUM_PIXELS` pixels. -/
def grid7 : List Pixel := List.replicate NUM_PIXELS (7, 7, 7)

/-- `grid7` after embedding the all-zero digest bits. -/
def grid76 : List Pixel := List.replicate NUM_PIXELS ((7, 7, 6) : Pixel)

/-- A 768-byte upload: the raw bytes of `grid7`. -/
def dataW : List Nat := List.replicate 768 7

/-- The secured buffer produced from `dataW` under the raw codec and
`hashZ`: the re-encoded embedded grid plus the packed all-ones LSB
trailer. -/
def finalW : List Nat := tobytes grid76 ++ List.replicate 32 255

/-- `grid7` is byte-valued. -/
theorem grid7_bounded : ∀ p ∈ grid7, p.1 < 256 ∧ p.2.1 < 256 ∧ p.2.2 < 256 := by
  intro p hp
  rw [grid7, List.mem_replicate] at hp
  rw [hp.2]
  decide

/-- `grid76` is byte-valued. -/
theorem grid76_bounded : ∀ p ∈ grid76, p.1 < 256 ∧ p.2.1 < 256 ∧ p.2.2 < 256 := by
  intro p hp
  rw [grid76, List.mem_replicate] at hp
  rw [hp.2]
  decide

/-- The raw codec decodes `dataW` to `grid7`. -/
theorem decodeRaw_dataW : decodeRaw dataW = some (grid7, "PNG") := by
  have hdw : dataW = tobytes grid7 := by
    rw [grid7, tobytes_replicate, show 3 * NUM_PIXELS = 768 from by decide]
    rfl
  rw [hdw]
  exact decodeRaw_encodeRaw grid7 grid7_bounded "PNG"

/-- The length of the upload `dataW`. -/
theorem dataW_length : dataW.length = 768 := List.length_replicate 768 7

/-- Securing `dataW` under the raw codec succeeds and yields `finalW`. -/
theorem secure_run_W : secure_image decodeRaw encodeRaw hashZ dataW = .ok finalW := by
  have hembed : embed_loop grid7
      (unpack_bytes_to_bits (hashZ (tobytes grid7)) (some HASH_BITS)) NUM_PIXELS =
      some (grid76, List.replicate NUM_PIXELS 1) := by
    have hbits : unpack_bytes_to_bits (hashZ (tobytes grid7)) (some HASH_BITS) =
        List.replicate 256 0 := unpack_replicate32 0 0 (by decide)
    rw [hbits]
    have hstep := embed_loop_replicate 7 7 7 0 (by omega) (by omega) (by omega)
      (by omega)
    rw [show ((7, 7, 2 * (7 / 2) + 0) : Pixel) = ((7, 7, 6) : Pixel) from by decide,
      show (7 : Nat) % 2 = 1 from by decide] at hstep
    exact hstep
  have hpk : pack_bits_to_bytes (List.replicate NUM_PIXELS 1) =
      some (List.replicate 32 255) :=
    pack_replicate 1 255 (by decide) (by decide) 32
  obtain ⟨flat2, lsbs, appended, hemb2, _, hpack2, _, hrun⟩ :=
    secure_ok_build decodeRaw encodeRaw hashZ dataW grid7 "PNG"
      (by rw [dataW_length]; decide) decodeRaw_dataW
      (by rw [grid7, List.length_replicate])
      (by rw [show hashZ (tobytes grid7) = List.replicate 32 0 from rfl,
        List.length_replicate])
  rw [hembed] at hemb2
  simp only [Option.some.injEq, Prod.mk.injEq] at hemb2
  obtain ⟨h1, h2⟩ := hemb2
  subst h1
  subst h2
  rw [hpk] at hpack2
  simp only [Option.some.injEq] at hpack2
  subst hpack2
  rw [hrun]
  rfl

/-- The length of the secured buffer `finalW`. -/
theorem finalW_length : finalW.length = 800 := by
  rw [finalW, List.length_append, tobytes_length, grid76, List.length_replicate,
    List.length_replicate]
  decide

/-- The result record of authenticating `finalW`. -/
def rW : AuthResult :=
  { authentic := true, match_count := 256, auth_percent := 100,
    restored := grid7, restored_image_bytes := tobytes grid7, fmt := "PNG" }

/-- Authenticating `finalW` under the raw codec succeeds with a fully
matching digest. -/
theorem authenticate_run_W :
    authenticate_image decodeRaw encodeRaw hashZ finalW = .ok rW := by
  have htlen : (tobytes grid76).length = 800 - APPENDED_BYTES := by
    rw [tobytes_length, grid76, List.length_replicate]
    decide
  have htake : finalW.take (finalW.length - APPENDED_BYTES) = tobytes grid76 := by
    rw [finalW_length, finalW]
    exact List.take_left' htlen
  have hdrop : finalW.drop (finalW.length - APPENDED_BYTES) =
      List.replicate 32 255 := by
    rw [finalW_length, finalW]
    exact List.drop_left' htlen
  have hdec : decodeRaw (finalW.take (finalW.length - APPENDED_BYTES)) =
      some (grid76, "PNG") := by
    rw [htake]
    exact decodeRaw_encodeRaw grid76 grid76_bounded "PNG"
  have hx : extract_loop grid76 NUM_PIXELS = some (List.replicate NUM_PIXELS 0) := by
    have hstep := extract_loop_replicate 7 7 6 (by omega) (by omega)
    rw [show (6 : Nat) % 2 = 0 from by decide] at hstep
    exact hstep
  have hres : restore_loop grid76
      (unpack_bytes_to_bits (finalW.drop (finalW.length - APPENDED_BYTES))
        (some HASH_BITS)) NUM_PIXELS = some grid7 := by
    rw [hdrop, unpack_replicate32 255 1 (by decide)]
    have hstep := restore_loop_replicate 7 7 6 1 (by omega) (by omega) (by omega)
      (by omega)
    rw [show ((7, 7, 2 * (6 / 2) + 1) : Pixel) = ((7, 7, 7) : Pixel) from by decide]
      at hstep
    exact hstep
  have hbuild := authenticate_ok_build decodeRaw encodeRaw hashZ finalW grid76 "PNG"
    (List.replicate NUM_PIXELS 0) grid7
    (by rw [finalW_length]; decide) hdec hx hres
  rw [hbuild]
  have hcb : unpack_bytes_to_bits (hashZ (tobytes grid7)) (some HASH_BITS) =
      List.replicate NUM_PIXELS 0 := unpack_replicate32 0 0 (by decide)
  simp only [hcb]
  have h1 : (List.replicate NUM_PIXELS (0 : Nat) == List.replicate NUM_PIXELS 0)
      = true := beq_self_eq_true _
  have h2 : ((List.replicate NUM_PIXELS (0 : Nat)).zip
      (List.replicate NUM_PIXELS 0)).countP (fun ab => ab.1 == ab.2) = 256 := by
    rw [countP_zip_self, List.length_replicate]
  rw [h1, h2]
  have h3 : (((256 : Nat) : ℚ) / ((HASH_BITS : Nat) : ℚ)) * 100 = (100 : ℚ) := by
    show ((256 : Nat) : ℚ) / ((256 : Nat) : ℚ) * 100 = (100 : ℚ)
    norm_num
  rw [h3]
  rfl

/-! ### A lossless codec whose re-encoded output is tiny -/

/-- A constant all-zero grid of `NUM_PIXELS` pixels. -/
def gridZ : List Pixel := List.replicate NUM_PIXELS (0, 0, 0)

/-- A 768-byte upload for the compressing codec. -/
def dataCe : List Nat := List.replicate 768 7

/-- An encoder that compresses the all-zero grid to a single byte and
writes every other grid as a tagged raw buffer. -/
def encodeCe : List Pixel → String → List Nat := fun g _ =>
  if g = gridZ then [1] else 0 :: tobytes g

/-- The matching decoder: inverts `encodeCe` and additionally maps the
upload `dataCe` to the all-zero grid. -/
def decodeCe : List Nat → Option (List Pixel × String) := fun bs =>
  if bs = [1] then some (gridZ, "PNG")
  else if bs = dataCe then some (gridZ, "PNG")
  else match bs with
    | 0 :: rest =>
      if rest.length % 3 = 0 ∧ ∀ x ∈ rest, x < 256 then
        some (parsePixels rest, "PNG")
      else none
    | _ => none

/-- `gridZ` is byte-valued. -/
theorem gridZ_bounded : ∀ p ∈ gridZ, p.1 < 256 ∧ p.2.1 < 256 ∧ p.2.2 < 256 := by
  intro p hp
  rw [gridZ, List.mem_replicate] at hp
  rw [hp.2]
  decide

/-- The upload is not the compressed singleton. -/
theorem dataCe_ne_one : dataCe ≠ [1] := by
  intro h
  have h1 : dataCe.length = 768 := List.length_replicate 768 7
  rw [h] at h1
  simp at h1

/-- The decoder accepts the upload `dataCe`. -/
theorem decodeCe_dataCe : decodeCe dataCe = some (gridZ, "PNG") := by
  unfold decodeCe
  rw [if_neg dataCe_ne_one, if_pos rfl]

/-- Every grid this decoder produces is byte-valued. -/
theorem decodeCe_bounded : ∀ bs flat f, decodeCe bs = some (flat, f) →
    ∀ p ∈ flat, p.1 < 256 ∧ p.2.1 < 256 ∧ p.2.2 < 256 := by
  intro bs flat f h
  unfold decodeCe at h
  by_cases h1 : bs = [1]
  · rw [if_pos h1] at h
    simp only [Option.some.injEq, Prod.mk.injEq] at h
    obtain ⟨hf, _⟩ := h
    subst hf
    exact gridZ_bounded
  · rw [if_neg h1] at h
    by_cases h2 : bs = dataCe
    · rw [if_pos h2] at h
      simp only [Option.some.injEq, Prod.mk.injEq] at h
      obtain ⟨hf, _⟩ := h
      subst hf
      exact gridZ_bounded
    · rw [if_neg h2] at h
      match bs, h with
      | [], h => exact absurd h (by simp)
      | 0 :: rest, h =>
        have h4 : (if rest.length % 3 = 0 ∧ ∀ x ∈ rest, x < 256 then
            some (parsePixels rest, "PNG") else none) = some (flat, f) := h
        by_cases h3 : (rest.length % 3 = 0 ∧ ∀ x ∈ rest, x < 256)
        · rw [if_pos h3] at h4
          simp only [Option.some.injEq, Prod.mk.injEq] at h4
          obtain ⟨hf, _⟩ := h4
          subst hf
          exact parsePixels_bounded rest.length rest rfl h3.2
        · rw [if_neg h3] at h4
          cases h4
      | (x + 1) :: rest, h => exact absurd h (by simp)

/-- Every successful decode by this decoder reports format PNG. -/
theorem decodeCe_fmt : ∀ bs flat f, decodeCe bs = some (flat, f) → f = "PNG" := by
  intro bs flat f h
  unfold decodeCe at h
  by_cases h1 : bs = [1]
  · rw [if_pos h1] at h
    simp only [Option.some.injEq, Prod.mk.injEq] at h
    exact h.2.symm
  · rw [if_neg h1] at h
    by_cases h2 : bs = dataCe
    · rw [if_pos h2] at h
      simp only [Option.some.injEq, Prod.mk.injEq] at h
      exact h.2.symm
    · rw [if_neg h2] at h
      match bs, h with
      | [], h => exact absurd h (by simp)
      | 0 :: rest, h =>
        have h4 : (if rest.length % 3 = 0 ∧ ∀ x ∈ rest, x < 256 then
            some (parsePixels rest, "PNG") else none) = some (flat, f) := h
        by_cases h3 : (rest.length % 3 = 0 ∧ ∀ x ∈ rest, x < 256)
        · rw [if_pos h3] at h4
          simp only [Option.some.injEq, Prod.mk.injEq] at h4
          exact h4.2.symm
        · rw [if_neg h3] at h4
          cases h4
      | (x + 1) :: rest, h => exact absurd h (by simp)

/-- The compressing codec is lossless on byte-valued grids, in every
format it can itself report. -/
theorem decodeCe_lossless : ∀ bs flat f, decodeCe bs = some (flat, f) →
    ∀ g, (∀ p ∈ g, p.1 < 256 ∧ p.2.1 < 256 ∧ p.2.2 < 256) →
    decodeCe (encodeCe g f) = some (g, f) := by
  intro bs flat f hdec g hg
  have hf : f = "PNG" := decodeCe_fmt bs flat f hdec
  subst hf
  unfold encodeCe
  by_cases hz : g = gridZ
  · rw [if_pos hz, hz]
    unfold decodeCe
    rw [if_pos rfl]
  · rw [if_neg hz]
    unfold decodeCe
    have hne1 : (0 :: tobytes g) ≠ [1] := by simp
    have hne2 : (0 :: tobytes g) ≠ dataCe := by
      intro h
      have h1 := congrArg List.head? h
      rw [show dataCe.head? = some 7 from rfl] at h1
      simp at h1
    rw [if_neg hne1, if_neg hne2]
    show (if (tobytes g).length % 3 = 0 ∧ ∀ x ∈ tobytes g, x < 256 then
      some (parsePixels (tobytes g), "PNG") else none) = some (g, "PNG")
    rw [if_pos ⟨by rw [tobytes_length]; omega, tobytes_bounded g hg⟩,
      parsePixels_tobytes]

/-- The secured buffer produced from `dataCe`: one byte of compressed
image plus the 32-byte trailer — 33 bytes in total. -/
def finalCe : List Nat := 1 :: List.replicate 32 0

/-- Securing `dataCe` under the compressing codec succeeds and yields
the 33-byte buffer `finalCe`. -/
theorem secure_run_Ce : secure_image decodeCe encodeCe hashZ dataCe = .ok finalCe := by
  have hembed : embed_loop gridZ
      (unpack_bytes_to_bits (hashZ (tobytes gridZ)) (some HASH_BITS)) NUM_PIXELS =
      some (gridZ, List.replicate NUM_PIXELS 0) := by
    have hbits : unpack_bytes_to_bits (hashZ (tobytes gridZ)) (some HASH_BITS) =
        List.replicate 256 0 := unpack_replicate32 0 0 (by decide)
    rw [hbits]
    have hstep := embed_loop_replicate 0 0 0 0 (by omega) (by omega) (by omega)
      (by omega)
    rw [show ((0, 0, 2 * (0 / 2) + 0) : Pixel) = ((0, 0, 0) : Pixel) from by decide,
      show (0 : Nat) % 2 = 0 from by decide] at hstep
    exact hstep
  have hpk : pack_bits_to_bytes (List.replicate NUM_PIXELS 0) =
      some (List.replicate 32 0) :=
    pack_replicate 0 0 (by decide) (by decide) 32
  obtain ⟨flat2, lsbs, appended, hemb2, _, hpack2, _, hrun⟩ :=
    secure_ok_build decodeCe encodeCe hashZ dataCe gridZ "PNG"
      (by rw [show dataCe.length = 768 from List.length_replicate 768 7]; decide)
      decodeCe_dataCe
      (by rw [gridZ, List.length_replicate])
      (by rw [show hashZ (tobytes gridZ) = List.replicate 32 0 from rfl,
        List.length_replicate])
  rw [hembed] at hemb2
  simp only [Option.some.injEq, Prod.mk.injEq] at hemb2
  obtain ⟨h1, h2⟩ := hemb2
  subst h1
  subst h2
  rw [hpk] at hpack2
  simp only [Option.some.injEq] at hpack2
  subst hpack2
  rw [hrun]
  rw [show encodeCe gridZ "PNG" = [1] from by unfold encodeCe; rw [if_pos rfl]]
  rfl

/-- The 33-byte secured buffer is rejected by the authenticate size
gate. -/
theorem authenticate_run_Ce :
    authenticate_image decodeCe encodeCe hashZ finalCe = .error .ImageTooSmall := by
  unfold authenticate_image
  rw [if_pos (by rw [show finalCe.length = 33 from by
    rw [finalCe, List.length_cons, List.length_replicate]]; decide)]

/-! ### A decoder yielding fewer than 256 pixels from a 768-byte file -/

/-- A 768-byte upload whose container decodes to a single pixel (the
byte-size check cannot see the decoded pixel count). -/
def dataC3 : List Nat := List.replicate 768 9

/-- A decoder mapping the 768-byte container `dataC3` to a 1-pixel
grid, as a 1x1 image padded with metadata would decode. -/
def decodeC3 : List Nat → Option (List Pixel × String) := fun bs =>
  if bs = dataC3 then some ([(0, 0, 0)], "PNG") else none

/-- The matching raw encoder. -/
def encodeC3 : List Pixel → String → List Nat := fun g _ => tobytes g

/-- The raw codec always reports format PNG. -/
theorem decodeRaw_fmt (bs : List Nat) (flat : List Pixel) (fmt : String)
    (h : decodeRaw bs = some (flat, fmt)) : fmt = "PNG" := by
  unfold decodeRaw at h
  by_cases hcond : (bs.length % 3 = 0 ∧ ∀ x ∈ bs, x < 256)
  · rw [if_pos hcond] at h
    simp only [Option.some.injEq, Prod.mk.injEq] at h
    exact h.2.symm
  · rw [if_neg hcond] at h
    cases h

/-! ### The claims -/

/-- The secure-then-authenticate property as the specification states
it: for every codec that is pixel-preserving (lossless re-encode) and
byte-valued, and every 32-byte digest function, securing any accepted
image and immediately authenticating the resulting buffer succeeds
with `authentic = true` and a 100% match. -/
def claim2Statement : Prop :=
  ∀ (decode : List Nat → Option (List Pixel × String))
    (encode : List Pixel → String → List Nat) (sha256 : List Nat → List Nat)
    (data final : List Nat),
    (∀ bs flat f, decode bs = some (flat, f) →
      ∀ p ∈ flat, p.1 < 256 ∧ p.2.1 < 256 ∧ p.2.2 < 256) →
    (∀ s, (sha256 s).length = 32) →
    (∀ bs flat f, decode bs = some (flat, f) →
      ∀ g, (∀ p ∈ g, p.1 < 256 ∧ p.2.1 < 256 ∧ p.2.2 < 256) →
      decode (encode g f) = some (g, f)) →
    secure_image decode encode sha256 data = .ok final →
    ∃ r, authenticate_image decode encode sha256 final = .ok r
      ∧ r.authentic = true ∧ r.auth_percent = 100

/-- Counterexample to C2 as stated: under a perfectly lossless codec
whose re-encoded output is small (33 bytes in total here), the secured
buffer is rejected by the 800-byte gate of `/authenticate`, so the
round trip does not report authentic. -/
theorem claim2_counterexample : ¬ claim2Statement := by
  intro h
  obtain ⟨r, hr, _, _⟩ := h decodeCe encodeCe hashZ dataCe finalCe
    decodeCe_bounded (fun _ => rfl) decodeCe_lossless secure_run_Ce
  rw [authenticate_run_Ce] at hr
  cases hr

/-- C2 (amended): for every byte-valued lossless codec and 32-byte
digest function, securing an accepted image and authenticating the
resulting buffer — provided that buffer meets the 800-byte minimum of
`/authenticate` — succeeds with `authentic = true` and an
authentication percentage of exactly 100. -/
theorem claim2_secure_then_authenticate
    (decode : List Nat → Option (List Pixel × String))
    (encode : List Pixel → String → List Nat) (sha256 : List Nat → List Nat)
    (data final : List Nat)
    (hbounded : ∀ bs flat f, decode bs = some (flat, f) →
      ∀ p ∈ flat, p.1 < 256 ∧ p.2.1 < 256 ∧ p.2.2 < 256)
    (hhash : ∀ s, (sha256 s).length = 32)
    (hlossless : ∀ bs flat f, decode bs = some (flat, f) →
      ∀ g, (∀ p ∈ g, p.1 < 256 ∧ p.2.1 < 256 ∧ p.2.2 < 256) →
      decode (encode g f) = some (g, f))
    (hsec : secure_image decode encode sha256 data = .ok final)
    (hbig : MIN_BYTES + APPENDED_BYTES ≤ final.length) :
    ∃ r, authenticate_image decode encode sha256 final = .ok r
      ∧ r.authentic = true ∧ r.auth_percent = 100 := by
  obtain ⟨hsize, flat, fmt, flat2, lsbs, appended, hdec, hembed, hpack, hfin⟩ :=
    secure_ok_inv decode encode sha256 data final hsec
  have hflatb : ∀ p ∈ flat, p.1 < 256 ∧ p.2.1 < 256 ∧ p.2.2 < 256 :=
    hbounded data flat fmt hdec
  have hdblen : (unpack_bytes_to_bits (sha256 (tobytes flat))
      (some HASH_BITS)).length = HASH_BITS := unpack_digest_length _ (hhash _)
  have hdbits : ∀ d ∈ unpack_bytes_to_bits (sha256 (tobytes flat))
      (some HASH_BITS), d < 2 := unpack_lt_two _ _
  obtain ⟨hlsbs_len, hflat2_len, hflat_len, _⟩ :=
    embed_loop_facts NUM_PIXELS flat _ flat2 lsbs hembed
  obtain ⟨flat2x, lsbsx, heqx, _, hlsbs_eq, _, _⟩ :=
    embed_loop_spec flat (unpack_bytes_to_bits (sha256 (tobytes flat))
      (some HASH_BITS)) NUM_PIXELS hflat_len (by rw [hdblen])
  rw [hembed] at heqx
  simp only [Option.some.injEq, Prod.mk.injEq] at heqx
  obtain ⟨hfx, hlx⟩ := heqx
  subst hfx
  subst hlx
  have hlsbs_bits : ∀ x ∈ lsbs, x < 2 := by
    intro x hx
    rw [hlsbs_eq] at hx
    obtain ⟨p, _, hpx⟩ := List.exists_of_mem_map hx
    rw [Nat.and_one_is_mod] at hpx
    omega
  obtain ⟨appended2, hpack2, happlen2, hunp2⟩ := pack_spec 32 lsbs
    (by rw [hlsbs_len]) hlsbs_bits
  rw [hpack] at hpack2
  simp only [Option.some.injEq] at hpack2
  subst hpack2
  have h32 : APPENDED_BYTES = 32 := rfl
  have henclen : final.length - APPENDED_BYTES = (encode flat2 fmt).length := by
    rw [hfin, List.length_append, happlen2]
    omega
  have htake : final.take (final.length - APPENDED_BYTES) = encode flat2 fmt := by
    rw [henclen, hfin, List.take_left]
  have hdrop : final.drop (final.length - APPENDED_BYTES) = appended := by
    rw [henclen, hfin, List.drop_left]
  have hflat2b : ∀ p ∈ flat2, p.1 < 256 ∧ p.2.1 < 256 ∧ p.2.2 < 256 :=
    embed_output_bounded flat flat2 _ lsbs hflat_len hflatb (by rw [hdblen])
      hdbits hembed
  have hdec2 : decode (encode flat2 fmt) = some (flat2, fmt) :=
    hlossless data flat fmt hdec flat2 hflat2b
  have hx : extract_loop flat2 NUM_PIXELS =
      some (unpack_bytes_to_bits (sha256 (tobytes flat)) (some HASH_BITS)) :=
    extract_after_embed flat flat2 _ lsbs hflat_len hflatb (by rw [hdblen])
      hdbits hembed
  have horig : unpack_bytes_to_bits (final.drop (final.length - APPENDED_BYTES))
      (some HASH_BITS) = lsbs := by
    rw [hdrop, unpack_some_eq_take, hunp2]
    exact List.take_of_length_le (by rw [hlsbs_len])
  have hres : restore_loop flat2
      (unpack_bytes_to_bits (final.drop (final.length - APPENDED_BYTES))
        (some HASH_BITS)) NUM_PIXELS = some flat := by
    rw [horig]
    exact restore_inverts_embed flat flat2 _ lsbs hflat_len hflatb
      (by rw [hdblen]) hdbits hembed
  have hauth := authenticate_ok_build decode encode sha256 final flat2 fmt
    (unpack_bytes_to_bits (sha256 (tobytes flat)) (some HASH_BITS)) flat
    hbig (by rw [htake]; exact hdec2) hx hres
  refine ⟨_, hauth, ?_, ?_⟩
  · show (unpack_bytes_to_bits (sha256 (tobytes flat)) (some HASH_BITS)
      == unpack_bytes_to_bits (sha256 (tobytes flat)) (some HASH_BITS)) = true
    exact beq_self_eq_true _
  · show ((((unpack_bytes_to_bits (sha256 (tobytes flat)) (some HASH_BITS)).zip
      (unpack_bytes_to_bits (sha256 (tobytes flat)) (some HASH_BITS))).countP
        (fun ab => ab.1 == ab.2) : ℚ) / (HASH_BITS : ℚ)) * 100 = 100
    rw [countP_zip_self, hdblen]
    show ((256 : Nat) : ℚ) / ((256 : Nat) : ℚ) * 100 = (100 : ℚ)
    norm_num

/-- Witness for the amended C2 at a concrete lossless run whose
secured buffer meets the 800-byte gate. -/
theorem claim2_witness :
    (secure_image decodeRaw encodeRaw hashZ dataW = .ok finalW) ∧
    (MIN_BYTES + APPENDED_BYTES ≤ finalW.length) ∧
    (∃ r, authenticate_image decodeRaw encodeRaw hashZ finalW = .ok r
      ∧ r.authentic = true ∧ r.auth_percent = 100) :=
  ⟨secure_run_W, by rw [finalW_length]; decide,
    claim2_secure_then_authenticate decodeRaw encodeRaw hashZ dataW finalW
      decodeRaw_bounded (fun _ => rfl)
      (fun bs flat f h g hg => by
        rw [decodeRaw_fmt bs flat f h]
        exact decodeRaw_encodeRaw g hg "PNG")
      secure_run_W (by rw [finalW_length]; decide)⟩

/-- C3 (refuted by the code): the 768-byte minimum-size check of
`/secure` is a check on the compressed container bytes and does not
bound the decoded pixel count; a 768-byte container decoding to a
single pixel passes the check, and the embedding loop then reads out
of bounds at index 1 and the run fails (an uncaught `IndexError` in
the Python source) instead of the loop being safe. -/
theorem claim3_size_check_does_not_bound_pixels :
    MIN_BYTES ≤ dataC3.length
    ∧ decodeC3 dataC3 = some ([((0 : Nat), 0, 0)], "PNG")
    ∧ ([((0 : Nat), 0, 0)] : List Pixel).length < NUM_PIXELS
    ∧ secure_image decodeC3 encodeC3 hashZ dataC3 = .error .RuntimeErr := by
  have hdecC3 : decodeC3 dataC3 = some ([((0 : Nat), 0, 0)], "PNG") := by
    unfold decodeC3
    rw [if_pos rfl]
  have hembnone : embed_loop [((0 : Nat), 0, 0)]
      (unpack_bytes_to_bits (hashZ (tobytes [((0 : Nat), 0, 0)]))
        (some HASH_BITS)) NUM_PIXELS = none := by
    cases hemb : embed_loop [((0 : Nat), 0, 0)]
        (unpack_bytes_to_bits (hashZ (tobytes [((0 : Nat), 0, 0)]))
          (some HASH_BITS)) NUM_PIXELS with
    | none => rfl
    | some st =>
      obtain ⟨_, _, hle, _⟩ :=
        embed_loop_facts NUM_PIXELS _ _ st.1 st.2 (by rw [hemb])
      exact absurd hle (by decide)
  refine ⟨?_, hdecC3, by decide, ?_⟩
  · rw [show dataC3.length = 768 from List.length_replicate 768 9]
    decide
  · unfold secure_image
    rw [if_neg (by
      rw [show dataC3.length = 768 from List.length_replicate 768 9]
      decide)]
    rw [hdecC3]
    simp only [hembnone]

/-- C1: for every pixel grid with at least 256 pixels (row-major,
byte-valued channels) and every 256-bit digest sequence, embedding the
digest bits into the LSBs of the first 256 folded pixel values while
recording the original LSBs, and then restoring with those recorded
bits, yields a grid pixel-exactly equal to the original grid. -/
theorem claim1_embed_restore_roundtrip (flat : List Pixel) (dbits : List Nat)
    (hlen : NUM_PIXELS ≤ flat.length)
    (hpix : ∀ p ∈ flat, p.1 < 256 ∧ p.2.1 < 256 ∧ p.2.2 < 256)
    (hdlen : dbits.length = HASH_BITS)
    (hdbit : ∀ d ∈ dbits, d < 2) :
    ∃ flat2 lsbs, embed_loop flat dbits NUM_PIXELS = some (flat2, lsbs)
      ∧ restore_loop flat2 lsbs NUM_PIXELS = some flat := by
  obtain ⟨flat2, lsbs, hembed, _, _, _, _⟩ :=
    embed_loop_spec flat dbits NUM_PIXELS hlen (by rw [hdlen])
  exact ⟨flat2, lsbs, hembed,
    restore_inverts_embed flat flat2 dbits lsbs hlen hpix (by rw [hdlen]) hdbit
      hembed⟩

/-- Witness for C1 at a concrete constant grid and all-ones digest. -/
theorem claim1_witness :
    (NUM_PIXELS ≤ (List.replicate NUM_PIXELS ((3, 4, 5) : Pixel)).length) ∧
    ((List.replicate HASH_BITS (1 : Nat)).length = HASH_BITS) ∧
    (∃ flat2 lsbs,
      embed_loop (List.replicate NUM_PIXELS ((3, 4, 5) : Pixel))
        (List.replicate HASH_BITS 1) NUM_PIXELS = some (flat2, lsbs) ∧
      restore_loop flat2 lsbs NUM_PIXELS =
        some (List.replicate NUM_PIXELS ((3, 4, 5) : Pixel))) :=
  ⟨by rw [List.length_replicate], by rw [List.length_replicate],
    claim1_embed_restore_roundtrip _ _ (by rw [List.length_replicate])
      (by
        intro p hp
        rw [List.mem_replicate] at hp
        rw [hp.2]
        decide)
      (by rw [List.length_replicate])
      (by
        intro d hd
        rw [List.mem_replicate] at hd
        omega)⟩

/-- C4 counterexample: on the one-element bit list `[0]` — whose length
is not a multiple of 8 — `pack_bits_to_bytes` does not return
`floor(1/8) = 0` bytes; it fails (the Python loop raises `IndexError`
reading past the end of the list). -/
theorem claim4_counterexample :
    ([0] : List Nat).length % 8 ≠ 0 ∧ pack_bits_to_bytes [0] = none ∧
      pack_bits_to_bytes [0] ≠ some [] := by
  refine ⟨by decide, by decide, by decide⟩

/-- C4 (amended): for every bit sequence whose length is not a multiple
of 8, `pack_bits_to_bytes` processes the complete groups but then reads
past the end of the sequence in the final incomplete group and fails
with an index error — it does not silently truncate. -/
theorem claim4_pack_incomplete_fails (bits : List Nat)
    (h : bits.length % 8 ≠ 0) : pack_bits_to_bytes bits = none :=
  pack_fail bits h

/-- Witness for the amended C4 at a three-bit list. -/
theorem claim4_witness :
    ([1, 0, 1] : List Nat).length % 8 ≠ 0 ∧ pack_bits_to_bytes [1, 0, 1] = none :=
  ⟨by decide, claim4_pack_incomplete_fails [1, 0, 1] (by decide)⟩

/-- C6: for every bit sequence whose length is a multiple of 8,
unpacking the result of packing it returns the original sequence, and
packing yields exactly one byte per eight bits (so 256 bits pack to
exactly 32 bytes). -/
theorem claim6_pack_unpack_roundtrip (bits : List Nat)
    (h8 : bits.length % 8 = 0) (hb : ∀ b ∈ bits, b < 2) :
    ∃ bys, pack_bits_to_bytes bits = some bys
      ∧ unpack_bytes_to_bits bys none = bits
      ∧ bys.length = bits.length / 8 := by
  obtain ⟨bys, hpack, hlen, hunp⟩ := pack_spec (bits.length / 8) bits (by omega) hb
  exact ⟨bys, hpack, hunp, hlen⟩

/-- Witness for C6 at a 256-bit sequence, packing to exactly 32 bytes. -/
theorem claim6_witness :
    ((List.replicate 256 (1 : Nat)).length % 8 = 0) ∧
    (∃ bys, pack_bits_to_bytes (List.replicate 256 1) = some bys
      ∧ unpack_bytes_to_bits bys none = List.replicate 256 1
      ∧ bys.length = (List.replicate 256 (1 : Nat)).length / 8) :=
  ⟨by rw [List.length_replicate],
    claim6_pack_unpack_roundtrip _ (by rw [List.length_replicate])
      (by
        intro b hb
        rw [List.mem_replicate] at hb
        omega)⟩

/-- C7: embedding changes at most the least-significant bit of the
folded 24-bit value of each of the first 256 pixels — R and G are kept
and only bit 0 of B is replaced, with no carry — and every pixel at
flattened index 256 or beyond is left completely unchanged. -/
theorem claim7_embedding_frame_effect (flat : List Pixel) (dbits : List Nat)
    (hlen : NUM_PIXELS ≤ flat.length)
    (hpix : ∀ p ∈ flat, p.1 < 256 ∧ p.2.1 < 256 ∧ p.2.2 < 256)
    (hdlen : dbits.length = HASH_BITS)
    (hdbit : ∀ d ∈ dbits, d < 2) :
    ∃ flat2 lsbs, embed_loop flat dbits NUM_PIXELS = some (flat2, lsbs)
      ∧ (∀ i, i < NUM_PIXELS → ∀ p, flat[i]? = some p → ∀ d, dbits[i]? = some d →
          flat2[i]? = some (p.1, p.2.1, 2 * (p.2.2 / 2) + d)
          ∧ fold p.1 p.2.1 (2 * (p.2.2 / 2) + d) =
              clear_lsb (fold p.1 p.2.1 p.2.2) + d)
      ∧ (∀ i, NUM_PIXELS ≤ i → flat2[i]? = flat[i]?) := by
  obtain ⟨flat2, lsbs, hembed, hflen, hlsbs, hbelow, habove⟩ :=
    embed_loop_nice flat dbits hlen hpix (by rw [hdlen]) hdbit
  refine ⟨flat2, lsbs, hembed, ?_, habove⟩
  intro i hi p hp d hd
  refine ⟨hbelow i hi p hp d hd, ?_⟩
  obtain ⟨hr, hg, hb⟩ := hpix p (List.getElem?_mem hp)
  have hd2 : d < 2 := hdbit d (List.getElem?_mem hd)
  rw [fold_eq p.1 p.2.1 (2 * (p.2.2 / 2) + d) hg (by omega),
    fold_eq p.1 p.2.1 p.2.2 hg hb]
  unfold clear_lsb
  omega

/-- Witness for C7 at a concrete constant grid and all-ones digest. -/
theorem claim7_witness :
    (NUM_PIXELS ≤ (List.replicate NUM_PIXELS ((9, 8, 7) : Pixel)).length) ∧
    (∃ flat2 lsbs,
      embed_loop (List.replicate NUM_PIXELS ((9, 8, 7) : Pixel))
        (List.replicate HASH_BITS 1) NUM_PIXELS = some (flat2, lsbs)
      ∧ (∀ i, i < NUM_PIXELS →
          ∀ p, (List.replicate NUM_PIXELS ((9, 8, 7) : Pixel))[i]? = some p →
          ∀ d, (List.replicate HASH_BITS (1 : Nat))[i]? = some d →
          flat2[i]? = some (p.1, p.2.1, 2 * (p.2.2 / 2) + d)
          ∧ fold p.1 p.2.1 (2 * (p.2.2 / 2) + d) =
              clear_lsb (fold p.1 p.2.1 p.2.2) + d)
      ∧ (∀ i, NUM_PIXELS ≤ i →
          flat2[i]? = (List.replicate NUM_PIXELS ((9, 8, 7) : Pixel))[i]?)) :=
  ⟨by rw [List.length_replicate],
    claim7_embedding_frame_effect _ _ (by rw [List.length_replicate])
      (by
        intro p hp
        rw [List.mem_replicate] at hp
        rw [hp.2]
        decide)
      (by rw [List.length_replicate])
      (by
        intro d hd
        rw [List.mem_replicate] at hd
        omega)⟩

/-- C8: `/secure` rejects every upload of fewer than 768 bytes with the
`ImageTooSmall` 400 error before any processing, and `/authenticate`
rejects every buffer of fewer than 800 bytes with the same error kind;
in both cases the operation aborts with no partial output. -/
theorem claim8_minimum_size_rejection
    (decode : List Nat → Option (List Pixel × String))
    (encode : List Pixel → String → List Nat) (sha256 : List Nat → List Nat)
    (data1 data2 : List Nat)
    (h1 : data1.length < MIN_BYTES)
    (h2 : data2.length < MIN_BYTES + APPENDED_BYTES) :
    secure_image decode encode sha256 data1 = .error .ImageTooSmall
    ∧ authenticate_image decode encode sha256 data2 = .error .ImageTooSmall := by
  constructor
  · unfold secure_image
    rw [if_pos h1]
  · unfold authenticate_image
    rw [if_pos h2]

/-- Witness for C8 at a 767-byte and a 799-byte buffer. -/
theorem claim8_witness :
    ((List.replicate 767 (0 : Nat)).length < MIN_BYTES) ∧
    ((List.replicate 799 (0 : Nat)).length < MIN_BYTES + APPENDED_BYTES) ∧
    (secure_image (fun _ => none) (fun _ _ => []) (fun _ => [])
        (List.replicate 767 0) = .error .ImageTooSmall
      ∧ authenticate_image (fun _ => none) (fun _ _ => []) (fun _ => [])
        (List.replicate 799 0) = .error .ImageTooSmall) :=
  ⟨by rw [List.length_replicate]; decide, by rw [List.length_replicate]; decide,
    claim8_minimum_size_rejection _ _ _ _ _
      (by rw [List.length_replicate]; decide)
      (by rw [List.length_replicate]; decide)⟩

/-- C9: for every input image accepted by `/secure`, the output buffer
is exactly the re-encoded modified image bytes followed by a trailer of
exactly 32 bytes (the packed 256 original LSB bits), so its length
equals the encoded image length plus 32, regardless of image size. -/
theorem claim9_trailer_length_invariant
    (decode : List Nat → Option (List Pixel × String))
    (encode : List Pixel → String → List Nat) (sha256 : List Nat → List Nat)
    (data final : List Nat)
    (h : secure_image decode encode sha256 data = .ok final) :
    ∃ flat fmt flat2 lsbs appended,
      decode data = some (flat, fmt)
      ∧ embed_loop flat (unpack_bytes_to_bits (sha256 (tobytes flat))
          (some HASH_BITS)) NUM_PIXELS = some (flat2, lsbs)
      ∧ pack_bits_to_bytes lsbs = some appended
      ∧ appended.length = APPENDED_BYTES
      ∧ final = encode flat2 fmt ++ appended
      ∧ final.length = (encode flat2 fmt).length + APPENDED_BYTES := by
  obtain ⟨_, flat, fmt, flat2, lsbs, appended, hdec, hembed, hpack, hfin⟩ :=
    secure_ok_inv decode encode sha256 data final h
  obtain ⟨hlsbs, _, _, _⟩ := embed_loop_facts NUM_PIXELS flat _ flat2 lsbs hembed
  have happ : appended.length = APPENDED_BYTES := by
    rw [pack_length lsbs appended hpack, hlsbs]
    decide
  refine ⟨flat, fmt, flat2, lsbs, appended, hdec, hembed, hpack, happ, hfin, ?_⟩
  rw [hfin, List.length_append, happ]

/-- Witness for C9 at a concrete run of `/secure`. -/
theorem claim9_witness :
    (secure_image decodeRaw encodeRaw hashZ dataW = .ok finalW) ∧
    (∃ flat fmt flat2 lsbs appended,
      decodeRaw dataW = some (flat, fmt)
      ∧ embed_loop flat (unpack_bytes_to_bits (hashZ (tobytes flat))
          (some HASH_BITS)) NUM_PIXELS = some (flat2, lsbs)
      ∧ pack_bits_to_bytes lsbs = some appended
      ∧ appended.length = APPENDED_BYTES
      ∧ finalW = encodeRaw flat2 fmt ++ appended
      ∧ finalW.length = (encodeRaw flat2 fmt).length + APPENDED_BYTES) :=
  ⟨secure_run_W,
    claim9_trailer_length_invariant decodeRaw encodeRaw hashZ dataW finalW
      secure_run_W⟩

/-- C5: in every successful run of `/authenticate` (with a 32-byte
digest function), `authentic` is decided by exact 256-bit equality of
the recomputed digest bits and the extracted embedded bits, the
reported percentage equals `100 * matchCount / 256` where `matchCount`
counts positionwise agreements over indices in `[0, 256)`, and the
percentage plays no role in the boolean decision (the boolean is fully
determined by the bit-sequence equality alone). -/
theorem claim5_exact_equality_decision
    (decode : List Nat → Option (List Pixel × String))
    (encode : List Pixel → String → List Nat) (sha256 : List Nat → List Nat)
    (data : List Nat) (r : AuthResult)
    (hhash : ∀ s, (sha256 s).length = 32)
    (h : authenticate_image decode encode sha256 data = .ok r) :
    ∃ computed_bits embedded_bits : List Nat,
      computed_bits.length = HASH_BITS
      ∧ embedded_bits.length = HASH_BITS
      ∧ (r.authentic = true ↔ computed_bits = embedded_bits)
      ∧ r.match_count = (List.range HASH_BITS).countP
          (fun i => computed_bits[i]? == embedded_bits[i]?)
      ∧ r.auth_percent = ((r.match_count : ℚ) / (HASH_BITS : ℚ)) * 100 := by
  obtain ⟨_, flat, fmt, embedded, restored, hdec, hx, hres, hauth, hmc, hpct, _, _,
    _⟩ := authenticate_ok_inv decode encode sha256 data r h
  have hclen : (unpack_bytes_to_bits (sha256 (tobytes restored))
      (some HASH_BITS)).length = HASH_BITS := unpack_digest_length _ (hhash _)
  have helen : embedded.length = HASH_BITS :=
    extract_loop_length flat NUM_PIXELS embedded hx
  refine ⟨unpack_bytes_to_bits (sha256 (tobytes restored)) (some HASH_BITS),
    embedded, hclen, helen, ?_, ?_, hpct⟩
  · rw [hauth]
    exact beq_iff_eq
  · rw [hmc]
    exact countP_zip_range HASH_BITS _ _ hclen helen

/-- Witness for C5 at a concrete successful run of `/authenticate`. -/
theorem claim5_witness :
    (authenticate_image decodeRaw encodeRaw hashZ finalW = .ok rW) ∧
    (∃ computed_bits embedded_bits : List Nat,
      computed_bits.length = HASH_BITS
      ∧ embedded_bits.length = HASH_BITS
      ∧ (rW.authentic = true ↔ computed_bits = embedded_bits)
      ∧ rW.match_count = (List.range HASH_BITS).countP
          (fun i => computed_bits[i]? == embedded_bits[i]?)
      ∧ rW.auth_percent = ((rW.match_count : ℚ) / (HASH_BITS : ℚ)) * 100) :=
  ⟨authenticate_run_W,
    claim5_exact_equality_decision decodeRaw encodeRaw hashZ finalW rW
      (fun _ => rfl) authenticate_run_W⟩

/-- C10: in every successful run of `/authenticate` (with a 32-byte
digest function), the two reported outputs agree: `authentic = true`
holds if and only if the computed authentication percentage equals
exactly 100, since both compared bit sequences always have length
exactly 256. -/
theorem claim10_authentic_iff_percent_100
    (decode : List Nat → Option (List Pixel × String))
    (encode : List Pixel → String → List Nat) (sha256 : List Nat → List Nat)
    (data : List Nat) (r : AuthResult)
    (hhash : ∀ s, (sha256 s).length = 32)
    (h : authenticate_image decode encode sha256 data = .ok r) :
    r.authentic = true ↔ r.auth_percent = 100 := by
  obtain ⟨_, flat, fmt, embedded, restored, hdec, hx, hres, hauth, hmc, hpct, _, _,
    _⟩ := authenticate_ok_inv decode encode sha256 data r h
  have hclen : (unpack_bytes_to_bits (sha256 (tobytes restored))
      (some HASH_BITS)).length = HASH_BITS := unpack_digest_length _ (hhash _)
  have helen : embedded.length = HASH_BITS :=
    extract_loop_length flat NUM_PIXELS embedded hx
  constructor
  · intro ha
    have hb : (unpack_bytes_to_bits (sha256 (tobytes restored)) (some HASH_BITS)
        == embedded) = true := by rw [← hauth, ha]
    have heq := eq_of_beq hb
    rw [heq, countP_zip_self, helen] at hmc
    rw [hpct, hmc]
    show ((256 : Nat) : ℚ) / ((256 : Nat) : ℚ) * 100 = (100 : ℚ)
    norm_num
  · intro hp
    rw [hpct] at hp
    have h2 : ((r.match_count : ℚ) / ((256 : Nat) : ℚ)) * 100 = 100 := hp
    rw [div_mul_eq_mul_div,
      div_eq_iff (by exact_mod_cast (by norm_num : (256 : ℚ) ≠ 0))] at h2
    have h3 : r.match_count * 100 = 100 * 256 := by exact_mod_cast h2
    have hc : r.match_count = HASH_BITS := by
      show r.match_count = 256
      omega
    rw [hc] at hmc
    have heq := (countP_zip_eq_iff HASH_BITS _ _ hclen helen).mp hmc.symm
    rw [hauth]
    exact beq_iff_eq.mpr heq

/-- Witness for C10 at a concrete successful run of `/authenticate`. -/
theorem claim10_witness :
    (authenticate_image decodeRaw encodeRaw hashZ finalW = .ok rW) ∧
    (rW.authentic = true ↔ rW.auth_percent = 100) :=
  ⟨authenticate_run_W,
    claim10_authentic_iff_percent_100 decodeRaw encodeRaw hashZ finalW rW
      (fun _ => rfl) authenticate_run_W⟩

end ImgAuth
